import Mathlib

/-!
# Verification of the policy-evaluation / policy-synthesis core

Shallow embedding of the repository's Python core over exact rationals:

* `enumerate_states`   — `mdp_utils.enumerate_states` (DFS with explicit stack,
  modelled with a fuel parameter since termination relies on the reachable set
  being finite, a documented precondition).
* `build_policy_Pr`    — `mdp_utils.build_policy_Pr` (policy-induced transition
  matrix and reward vector); Python `dict` index lookups that can raise
  `KeyError` are modelled with `Option`.
* `bellman_update`, `exact_policy_evaluation` — `bellman.py`.
* `iterative_policy_evaluation` — `policy_eval.py`.
* `MyPolicy`           — `my_policy.py` (most-likely-successor graph, reverse
  BFS distance map, tie-broken action choice).
* `run`                — `run.py` (orchestrator).

Machine floats are modelled as exact rationals (`ℚ`); `float('inf')` distances
are modelled as `ℕ∞`.  States and actions are opaque types with decidable
equality, as in the Python source where states are opaque hashables.
-/

/-- Lookup in the Python dict `{s: i for i, s in enumerate(states)}`:
for a duplicated key the *last* index wins, and a missing key is `none`
(a Python `KeyError`). -/
def dictIdx {σ : Type} [DecidableEq σ] : (l : List σ) → σ → Option (Fin l.length)
  | [], _ => none
  | s :: t, x =>
    match dictIdx t x with
    | some j => some j.succ
    | none => if x = s then some ⟨0, Nat.succ_pos _⟩ else none

/-- The abstract environment interface consumed by the core
(`start_state`, `actions`, `transition`, `reward`), with transition
distributions reported as ordered lists of (state, probability) pairs. -/
structure FinMDP (σ α : Type) where
  start : σ
  actions : σ → List α
  transition : σ → α → List (σ × ℚ)
  reward : σ → ℚ

/-- The policy capability set consumed by the chain builder: callable as a
point policy (`act`, which can fail, modelling a raised exception), and
optionally exposing `action_probs` as an ordered association list
(a Python dict in insertion order).  `action_probs = none` models the
attribute being absent (`getattr(policy, "action_probs", None)` is `None`). -/
structure PolicyFn (σ α : Type) where
  act : σ → Option α
  action_probs : Option (σ → List (α × ℚ))

section Enumerate

variable {σ α : Type} [DecidableEq σ] [DecidableEq α]

/-- One pass of the inner double loop of `enumerate_states`: for each
`(ns, p)` reported by some action of the popped state, add `ns` to
`seen`/`out`/the stack unless already seen.  The accumulator is
`(seen, out, stack)`; the Python stack appends at the end and pops at the
end, modelled here as pushing to and popping from the head. -/
def enumStep (succs : List (σ × ℚ)) (acc : List σ × List σ × List σ) :
    List σ × List σ × List σ :=
  succs.foldl
    (fun acc nsp =>
      if nsp.1 ∈ acc.1 then acc
      else (nsp.1 :: acc.1, acc.2.1 ++ [nsp.1], nsp.1 :: acc.2.2))
    acc

/-- The `while stk:` loop of `mdp_utils.enumerate_states`, with fuel
(the Python loop terminates because the reachable set is finite,
a documented precondition).  When fuel runs out the discovery list built
so far is returned. -/
def enumLoop (mdp : FinMDP σ α) : ℕ → List σ → List σ → List σ → List σ
  | 0, _, out, _ => out
  | _ + 1, _, out, [] => out
  | fuel + 1, seen, out, s :: stk =>
    let acc := enumStep ((mdp.actions s).flatMap (fun a => mdp.transition s a)) (seen, out, stk)
    enumLoop mdp fuel acc.1 acc.2.1 acc.2.2

/-- `mdp_utils.enumerate_states`: deterministic DFS enumeration of the
states reachable from the start state, in first-discovery order. -/
def enumerate_states (mdp : FinMDP σ α) (fuel : ℕ) : List σ :=
  enumLoop mdp fuel [mdp.start] [mdp.start] [mdp.start]

end Enumerate

section Build

variable {σ α : Type} [DecidableEq σ] [DecidableEq α] {n : ℕ}

/-- The inner accumulation `P[i, idx[ns]] += w * p` over one reported
transition distribution `tr`; fails (Python `KeyError`) if some successor
is not an enumerated state. -/
def accumTrans (idx : σ → Option (Fin n)) (w : ℚ) :
    List (σ × ℚ) → (Fin n → ℚ) → Option (Fin n → ℚ)
  | [], row => some row
  | (ns, p) :: rest, row =>
    match idx ns with
    | none => none
    | some j => accumTrans idx w rest (Function.update row j (row j + w * p))

/-- The stochastic-policy branch of `build_policy_Pr`: iterate over the
`action_probs` items in order, skipping actions with `pa <= 0`, and
accumulate `pa * p` over each action's transition distribution. -/
def accumStoch (mdp : FinMDP σ α) (idx : σ → Option (Fin n)) (s : σ) :
    List (α × ℚ) → (Fin n → ℚ) → Option (Fin n → ℚ)
  | [], row => some row
  | (a, pa) :: rest, row =>
    if pa ≤ 0 then accumStoch mdp idx s rest row
    else
      match accumTrans idx pa (mdp.transition s a) row with
      | none => none
      | some row' => accumStoch mdp idx s rest row'

/-- The body of the `for s in states:` loop of `build_policy_Pr` for one
state `s`, acting on the current contents `row0` of row `i = idx[s]`:

* if `actions(s) == [ABSORB]`, assign `P[i, idx[(ABSORB, ABSORB)]] = 1.0`
  and `continue` (no rescale);
* otherwise accumulate the policy-weighted transition probabilities
  (distributional branch when `action_probs` is present and `probs` is
  truthy, i.e. a non-empty dict; point branch otherwise), then rescale the
  row to sum to 1 when its sum `rs` satisfies `rs > 0 ∧ |rs - 1| > 1e-8`. -/
def buildRow (mdp : FinMDP σ α) (policy : PolicyFn σ α) (idx : σ → Option (Fin n))
    (absorbA : α) (absorbS : σ) (s : σ) (row0 : Fin n → ℚ) : Option (Fin n → ℚ) :=
  if mdp.actions s = [absorbA] then
    (idx absorbS).map (fun j => Function.update row0 j 1)
  else
    (match policy.action_probs with
     | some ap =>
       if ap s = [] then
         match policy.act s with
         | none => none
         | some a => accumTrans idx 1 (mdp.transition s a) row0
       else accumStoch mdp idx s (ap s) row0
     | none =>
       match policy.act s with
       | none => none
       | some a => accumTrans idx 1 (mdp.transition s a) row0 :
        Option (Fin n → ℚ)).map
      (fun row =>
        let rs := ∑ j, row j
        if 0 < rs ∧ 1 / 100000000 < |rs - 1| then (fun j => row j / rs) else row)

/-- The `for s in states:` loop of `build_policy_Pr`, threading the matrix. -/
def buildLoop (mdp : FinMDP σ α) (policy : PolicyFn σ α) (idx : σ → Option (Fin n))
    (absorbA : α) (absorbS : σ) :
    List σ → (Fin n → Fin n → ℚ) → Option (Fin n → Fin n → ℚ)
  | [], P => some P
  | s :: rest, P =>
    match idx s with
    | none => none
    | some i =>
      match buildRow mdp policy idx absorbA absorbS s (P i) with
      | none => none
      | some row => buildLoop mdp policy idx absorbA absorbS rest (Function.update P i row)

/-- `mdp_utils.build_policy_Pr`: the policy-induced transition matrix `P`
and the reward-on-entry vector `r = P @ rew`.  `absorbA` is the
distinguished `ABSORB` action and `absorbS` the absorbing state tuple
`(ABSORB, ABSORB)`. -/
def build_policy_Pr (mdp : FinMDP σ α) (policy : PolicyFn σ α) (absorbA : α) (absorbS : σ)
    (states : List σ) :
    Option ((Fin states.length → Fin states.length → ℚ) × (Fin states.length → ℚ)) :=
  match buildLoop mdp policy (dictIdx states) absorbA absorbS states (fun _ _ => 0) with
  | none => none
  | some P =>
    let rew : Fin states.length → ℚ := fun j => mdp.reward (states.get j)
    some (P, fun i => ∑ j, P i j * rew j)

end Build

section Eval

variable {n : ℕ}

/-- `bellman.bellman_update`: one Bellman update `v_new = r + gamma * (P @ v)`. -/
def bellman_update (v : Fin n → ℚ) (P : Matrix (Fin n) (Fin n) ℚ) (r : Fin n → ℚ)
    (gamma : ℚ) : Fin n → ℚ :=
  r + gamma • P.mulVec v

/-- `bellman.exact_policy_evaluation`: solve `(I - gamma*P) v = r` with a
general linear solver.  `np.linalg.solve` raises on a singular matrix,
modelled as `none`; on a nonsingular matrix the unique solution is
returned, here computed through the adjugate. -/
def exact_policy_evaluation (P : Matrix (Fin n) (Fin n) ℚ) (r : Fin n → ℚ)
    (gamma : ℚ) : Option (Fin n → ℚ) :=
  let A : Matrix (Fin n) (Fin n) ℚ := 1 - gamma • P
  if A.det = 0 then none else some ((A.det)⁻¹ • A.adjugate.mulVec r)

/-- `np.max(np.abs(w))`: the infinity norm of a vector, as a fold. -/
def vecNormInf (v : Fin n → ℚ) : ℚ :=
  (List.ofFn (fun i => |v i|)).foldr max 0

/-- The `for _ in range(max_iters):` loop of
`policy_eval.iterative_policy_evaluation`: apply the Bellman update,
measure the step in the infinity norm, and break as soon as it falls
below `thresh`; with the fuel exhausted, return the current iterate. -/
def evalLoop (F : (Fin n → ℚ) → (Fin n → ℚ)) (thresh : ℚ) :
    ℕ → (Fin n → ℚ) → (Fin n → ℚ)
  | 0, v => v
  | fuel + 1, v =>
    let vNew := F v
    if vecNormInf (vNew - v) < thresh then vNew else evalLoop F thresh fuel vNew

/-- The default `eps = 1e-6` of `iterative_policy_evaluation`. -/
def defaultEps : ℚ := 1 / 1000000

/-- The default `max_iters = 100000` of `iterative_policy_evaluation`. -/
def defaultMaxIters : ℕ := 100000

/-- `policy_eval.iterative_policy_evaluation`: repeated Bellman updates
from `v0 = 0` with stopping threshold `eps` when `gamma == 1.0` and
`eps * (1 - gamma) / gamma` otherwise, capped at `max_iters` updates. -/
def iterative_policy_evaluation (P : Matrix (Fin n) (Fin n) ℚ) (r : Fin n → ℚ)
    (gamma eps : ℚ) (maxIters : ℕ) : Fin n → ℚ :=
  let thresh : ℚ := if gamma = 1 then eps else eps * (1 - gamma) / gamma
  evalLoop (fun v => bellman_update v P r gamma) thresh maxIters 0

end Eval

section Synth

variable {σ α R R₂ : Type} [DecidableEq σ] [DecidableEq α]

/-- The accumulator fold of `MyPolicy._most_likely_successor`: keep the
current best successor unless a strictly larger probability appears, so
the first occurrence wins among ties. -/
def mostLikelyGo (best : σ) (bestP : ℚ) : List (σ × ℚ) → σ
  | [] => best
  | (ns, p) :: rest =>
    if bestP < p then mostLikelyGo ns p rest else mostLikelyGo best bestP rest

/-- `MyPolicy._most_likely_successor` applied to a reported transition
distribution: `none` on an empty distribution, otherwise the argmax by
probability with ties broken by first occurrence. -/
def mostLikelySuccessor (dist : List (σ × ℚ)) : Option σ :=
  match dist with
  | [] => none
  | (ns, p) :: rest => some (mostLikelyGo ns p rest)

/-- Step 2 of `MyPolicy._build`: the reverse most-likely-successor edge
map.  For each enumerated state `s` that is not terminal and each action
of the fixed canonical order `canon` (the source tuple
`(UP, RIGHT, DOWN, LEFT)`) that is legal in `s`, append `(s, a)` to the
predecessor list of the most-likely successor.  The dict with default
`[]` is modelled as a total function. -/
def buildPreds (mdp : FinMDP σ α) (canon : List α) (absorbA : α) (states : List σ) :
    σ → List (σ × α) :=
  states.foldl
    (fun preds s =>
      if mdp.actions s = [absorbA] then preds
      else
        canon.foldl
          (fun preds a =>
            if a ∈ mdp.actions s then
              match mostLikelySuccessor (mdp.transition s a) with
              | none => preds
              | some ns => Function.update preds ns (preds ns ++ [(s, a)])
            else preds)
          preds)
    (fun _ => [])

/-- The body of the reverse-BFS while loop for one popped state with
distance `dx`: for each recorded predecessor `(p, a)`, whenever
`d[p] > dx + 1` set `d[p] = dx + 1` and enqueue `p` at the tail. -/
def relaxPreds (dx : ℕ∞) : List (σ × α) → (σ → ℕ∞) → List σ → (σ → ℕ∞) × List σ
  | [], d, q => (d, q)
  | (p, _) :: rest, d, q =>
    if dx + 1 < d p then relaxPreds dx rest (Function.update d p (dx + 1)) (q ++ [p])
    else relaxPreds dx rest d q

/-- The `while q:` reverse-BFS loop of `MyPolicy._build` (FIFO deque:
pop at the head, push at the tail), with fuel; `none` models running out
of fuel before the queue empties (the Python loop always terminates). -/
def bfsLoop (preds : σ → List (σ × α)) : ℕ → (σ → ℕ∞) → List σ → Option (σ → ℕ∞)
  | _, d, [] => some d
  | 0, _, _ :: _ => none
  | fuel + 1, d, x :: q =>
    let r := relaxPreds (d x) (preds x) d q
    bfsLoop preds fuel r.1 r.2

/-- The action-selection fold of step 4 of `MyPolicy._build`: iterate the
tie-break order over the legal actions, keeping the action whose
most-likely successor has the strictly smallest distance seen so far;
`best_d` starts at infinity and `best_a` at `None`. -/
def chooseFold (mdp : FinMDP σ α) (dist : σ → ℕ∞) (s : σ) :
    List α → Option α × ℕ∞ → Option α × ℕ∞
  | [], best => best
  | a :: rest, best =>
    if a ∈ mdp.actions s then
      match mostLikelySuccessor (mdp.transition s a) with
      | none => chooseFold mdp dist s rest best
      | some ns =>
        if dist ns < best.2 then chooseFold mdp dist s rest (some a, dist ns)
        else chooseFold mdp dist s rest best
    else chooseFold mdp dist s rest best

/-- The per-state action choice of step 4: the winning action of the
tie-break fold, or the first tie-break action when every candidate
distance is infinite (`best_a is None`). -/
def chooseFor (mdp : FinMDP σ α) (dist : σ → ℕ∞) (tieBreak : List α) (s : σ) : Option α :=
  match (chooseFold mdp dist s tieBreak (none, ⊤)).1 with
  | some a => some a
  | none => tieBreak.head?

/-- The `self._choice` dict: for each enumerated non-terminal state, the
chosen action; terminal states are skipped. -/
def buildChoice (mdp : FinMDP σ α) (dist : σ → ℕ∞) (tieBreak : List α) (absorbA : α)
    (states : List σ) : σ → Option α :=
  states.foldl
    (fun ch s =>
      if mdp.actions s = [absorbA] then ch
      else Function.update ch s (chooseFor mdp dist tieBreak s))
    (fun _ => none)

/-- The fields stored by `MyPolicy.__init__` / `_build` that later queries
consult: the randomness source (stored, never read), the enumerated
states, the reverse edges, the distance map, the choice dict, and the
tie-break order. -/
structure MyPolicyState (σ α R : Type) where
  rng : R
  states : List σ
  preds : σ → List (σ × α)
  dist : σ → ℕ∞
  choice : σ → Option α
  tieBreak : List α

/-- `MyPolicy.__init__` + `MyPolicy._build`: enumerate reachable states,
record reverse most-likely-successor edges, compute BFS distances from
the seed states (those passing the goal/absorbing duck-typed tag probe,
abstracted as the predicate `isSeed`, with non-conforming state shapes
giving `false` as the `try/except` skips them), and precompute action
choices.  `fuel` bounds the enumeration and BFS loops. -/
def myPolicyInit (mdp : FinMDP σ α) (rng : R) (isSeed : σ → Bool) (canon tieBreak : List α)
    (absorbA : α) (fuel : ℕ) : Option (MyPolicyState σ α R) :=
  let states := enumerate_states mdp fuel
  let preds := buildPreds mdp canon absorbA states
  let seeds := states.filter (fun s => isSeed s)
  let d0 : σ → ℕ∞ := seeds.foldl (fun d t => Function.update d t 0) (fun _ => ⊤)
  match bfsLoop preds fuel d0 seeds with
  | none => none
  | some d =>
    some ⟨rng, states, preds, d, buildChoice mdp d tieBreak absorbA states, tieBreak⟩

/-- `MyPolicy._decision`: `ABSORB` on a terminal state, otherwise the
precomputed choice with the first tie-break action as defensive
fallback (`none` only on an empty tie-break order, where the Python
indexing `tie_break[0]` would raise). -/
def myPolicyDecision (mdp : FinMDP σ α) (ps : MyPolicyState σ α R) (absorbA : α) (s : σ) :
    Option α :=
  if mdp.actions s = [absorbA] then some absorbA
  else
    match ps.choice s with
    | some a => some a
    | none => ps.tieBreak.head?

end Synth

section Run

variable {σ α R : Type} [DecidableEq σ] [DecidableEq α]

/-- `run.run`: build the value-free policy, enumerate the states, build
the policy-induced chain, evaluate it with the selected method
(`"exact"` or `"iterative"`, anything else raising `ValueError`,
modelled as `none`), and report the fitness `f_pi = v[0]`.

The constructed `MyPolicy` is consumed by the chain builder as a point
policy.  Modelled from the spec: the `Policy` base class (`policy.py`) is
not among the sources; per the external-interface section a policy is
callable as `state -> Action` with `action_probs` an optional capability,
which the deterministic `MyPolicy` does not provide. -/
def run (mdp : FinMDP σ α) (rng : R) (isSeed : σ → Bool) (canon tieBreak : List α)
    (absorbA : α) (absorbS : σ) (gamma : ℚ) (fuel : ℕ) (method : String) :
    Option (MyPolicyState σ α R × (Fin (enumerate_states mdp fuel).length → ℚ) × ℚ) :=
  match myPolicyInit mdp rng isSeed canon tieBreak absorbA fuel with
  | none => none
  | some pol =>
    let piFn : PolicyFn σ α := ⟨fun s => myPolicyDecision mdp pol absorbA s, none⟩
    let states := enumerate_states mdp fuel
    match build_policy_Pr mdp piFn absorbA absorbS states with
    | none => none
    | some Pr =>
      let vOpt : Option (Fin states.length → ℚ) :=
        if method = "exact" then exact_policy_evaluation (Matrix.of Pr.1) Pr.2 gamma
        else
          if method = "iterative" then
            some (iterative_policy_evaluation (Matrix.of Pr.1) Pr.2 gamma defaultEps
              defaultMaxIters)
          else none
      match vOpt with
      | none => none
      | some v => if h : 0 < states.length then some (pol, v, v ⟨0, h⟩) else none

end Run

/-! ## Helper lemmas about `dictIdx` -/

theorem dictIdx_get {σ : Type} [DecidableEq σ] :
    ∀ {l : List σ} {x : σ} {i : Fin l.length}, dictIdx l x = some i → l.get i = x := by
  intro l
  induction l with
  | nil => intro x i h; simp [dictIdx] at h
  | cons s t ih =>
    intro x i h
    simp only [dictIdx] at h
    cases hd : dictIdx t x with
    | some j =>
      rw [hd] at h
      cases h
      simpa using ih hd
    | none =>
      rw [hd] at h
      by_cases hx : x = s
      · simp only [hx, if_pos rfl] at h
        cases h
        simpa using hx.symm
      · simp [hx] at h

theorem dictIdx_isSome_of_mem {σ : Type} [DecidableEq σ] :
    ∀ {l : List σ} {x : σ}, x ∈ l → (dictIdx l x).isSome := by
  intro l
  induction l with
  | nil => intro x h; simp at h
  | cons s t ih =>
    intro x h
    simp only [dictIdx]
    cases hd : dictIdx t x with
    | some j => simp
    | none =>
      rcases List.mem_cons.mp h with h1 | h2
      · simp [h1]
      · have := ih h2
        rw [hd] at this
        simp at this

theorem dictIdx_eq_none_of_not_mem {σ : Type} [DecidableEq σ] :
    ∀ {l : List σ} {x : σ}, x ∉ l → dictIdx l x = none := by
  intro l
  induction l with
  | nil => intro x _; rfl
  | cons s t ih =>
    intro x h
    have hxs : ¬x = s := fun hh => h (by simp [hh])
    have hxt : x ∉ t := fun hh => h (by simp [hh])
    simp only [dictIdx, ih hxt, hxs]
    rfl

theorem dictIdx_cons_self_of_not_mem {σ : Type} [DecidableEq σ] {t : List σ} {x : σ}
    (h : x ∉ t) : dictIdx (x :: t) x = some ⟨0, Nat.succ_pos _⟩ := by
  simp [dictIdx, dictIdx_eq_none_of_not_mem h]

/-! ## C9: the synthesized policy ignores the random-number generator -/

/-- C9: the constructed policy is independent of the random-number
generator: for any two generators `rng1`, `rng2` (of any types), MyPolicy
construction yields identical enumerated states, distance maps and
precomputed choices, and the decision function returns the same action at
every state — construction and decision never consult the generator. -/
theorem myPolicy_rng_independent {σ α R R₂ : Type} [DecidableEq σ] [DecidableEq α]
    (mdp : FinMDP σ α) (isSeed : σ → Bool) (canon tieBreak : List α) (absorbA : α)
    (fuel : ℕ) (rng1 : R) (rng2 : R₂) :
    (myPolicyInit mdp rng1 isSeed canon tieBreak absorbA fuel).map
        (fun ps => (ps.states, ps.dist, ps.choice,
          fun s => myPolicyDecision mdp ps absorbA s)) =
      (myPolicyInit mdp rng2 isSeed canon tieBreak absorbA fuel).map
        (fun ps => (ps.states, ps.dist, ps.choice,
          fun s => myPolicyDecision mdp ps absorbA s)) := by
  unfold myPolicyInit
  cases hb :
      bfsLoop (buildPreds mdp canon absorbA (enumerate_states mdp fuel)) fuel
        (((enumerate_states mdp fuel).filter (fun s => isSeed s)).foldl
          (fun d t => Function.update d t 0) (fun _ => ⊤))
        ((enumerate_states mdp fuel).filter (fun s => isSeed s)) with
  | none => simp [hb]
  | some d => simp [hb, myPolicyDecision]

/-! ## C7: most-likely successor is the first argmax -/

theorem mostLikelyGo_spec {σ : Type} (rest : List (σ × ℚ)) :
    ∀ (b : σ) (p : ℚ), ∃ (i : ℕ) (ns : σ) (pm : ℚ),
      ((b, p) :: rest).get? i = some (ns, pm) ∧
      mostLikelyGo b p rest = ns ∧
      (∀ y ∈ (b, p) :: rest, Prod.snd y ≤ pm) ∧
      (∀ (j : ℕ) (y : σ × ℚ), j < i → ((b, p) :: rest).get? j = some y →
        Prod.snd y < pm) := by
  induction rest with
  | nil =>
    intro b p
    refine ⟨0, b, p, rfl, rfl, ?_, ?_⟩
    · intro y hy; simp at hy; simp [hy]
    · intro j y hj; omega
  | cons hd tl ih =>
    obtain ⟨c, q⟩ := hd
    intro b p
    by_cases hpq : p < q
    · obtain ⟨i, ns, pm, hget, hgo, hub, hstrict⟩ := ih c q
      have hqpm : q ≤ pm := hub (c, q) (by simp)
      refine ⟨i + 1, ns, pm, by simpa using hget, by simpa [mostLikelyGo, hpq] using hgo,
        ?_, ?_⟩
      · intro y hy
        rcases List.mem_cons.mp hy with rfl | hy'
        · exact le_trans (le_of_lt hpq) hqpm
        · exact hub y hy'
      · intro j y hj hgety
        cases j with
        | zero =>
          simp only [List.get?_cons_zero, Option.some.injEq] at hgety
          rw [← hgety]
          exact lt_of_lt_of_le hpq hqpm
        | succ k =>
          exact hstrict k y (by omega) (by simpa using hgety)
    · obtain ⟨i, ns, pm, hget, hgo, hub, hstrict⟩ := ih b p
      have hqp : q ≤ p := le_of_not_lt hpq
      have hppm : p ≤ pm := hub (b, p) (by simp)
      cases i with
      | zero =>
        simp only [List.get?_cons_zero, Option.some.injEq] at hget
        refine ⟨0, ns, pm, by simp [← hget], by simpa [mostLikelyGo, hpq] using hgo, ?_, ?_⟩
        · intro y hy
          rcases List.mem_cons.mp hy with rfl | hy'
          · exact hppm
          · rcases List.mem_cons.mp hy' with rfl | hy''
            · exact le_trans hqp hppm
            · exact hub y (by simp [hy''])
        · intro j y hj; omega
      | succ k =>
        have hppm' : p < pm := hstrict 0 (b, p) (by omega) rfl
        refine ⟨k + 2, ns, pm, by simpa using hget,
          by simpa [mostLikelyGo, hpq] using hgo, ?_, ?_⟩
        · intro y hy
          rcases List.mem_cons.mp hy with rfl | hy'
          · exact hppm
          · rcases List.mem_cons.mp hy' with rfl | hy''
            · exact le_trans hqp hppm
            · exact hub y (by simp [hy''])
        · intro j y hj hgety
          cases j with
          | zero =>
            simp only [List.get?_cons_zero, Option.some.injEq] at hgety
            rw [← hgety]
            exact hppm'
          | succ m =>
            cases m with
            | zero =>
              simp only [List.get?_cons_succ, List.get?_cons_zero,
                Option.some.injEq] at hgety
              rw [← hgety]
              exact lt_of_le_of_lt hqp hppm'
            | succ m' =>
              exact hstrict (m' + 1) y (by omega) (by simpa using hgety)

/-- C7: for a non-empty reported transition distribution the computed
most-likely successor is a successor attaining the maximum transition
probability, and among successors tied at that maximum it is the one
occurring first in the distribution (every strictly earlier entry has a
strictly smaller probability — no secondary key); an empty distribution
yields no successor. -/
theorem mostLikely_first_argmax {σ : Type} (l : List (σ × ℚ)) :
    (l = [] → mostLikelySuccessor l = none) ∧
    (l ≠ [] → ∃ (i : ℕ) (ns : σ) (pm : ℚ),
      l.get? i = some (ns, pm) ∧
      mostLikelySuccessor l = some ns ∧
      (∀ y ∈ l, Prod.snd y ≤ pm) ∧
      (∀ (j : ℕ) (y : σ × ℚ), j < i → l.get? j = some y → Prod.snd y < pm)) := by
  constructor
  · intro h; rw [h]; rfl
  · intro h
    match l with
    | [] => exact absurd rfl h
    | (b, p) :: rest =>
      obtain ⟨i, ns, pm, hget, hgo, hub, hstrict⟩ := mostLikelyGo_spec rest b p
      exact ⟨i, ns, pm, hget, by simpa [mostLikelySuccessor] using hgo, hub, hstrict⟩

/-- Witness for C7 at a concrete distribution with a tie at the maximum:
on `[(10, 1/2), (20, 1/2), (30, 1/4)]` the first argmax sits at index 0. -/
theorem mostLikely_first_argmax_witness :
    ((10, (1 : ℚ)/2) :: (20, (1 : ℚ)/2) :: (30, (1 : ℚ)/4) :: ([] : List (ℕ × ℚ)) ≠ []) ∧
    (∃ (i : ℕ) (ns : ℕ) (pm : ℚ),
      ((10, (1 : ℚ)/2) :: (20, (1 : ℚ)/2) :: (30, (1 : ℚ)/4) :: []).get? i
          = some (ns, pm) ∧
      mostLikelySuccessor ((10, (1 : ℚ)/2) :: (20, (1 : ℚ)/2) :: (30, (1 : ℚ)/4) :: [])
          = some ns ∧
      (∀ y ∈ (10, (1 : ℚ)/2) :: (20, (1 : ℚ)/2) :: (30, (1 : ℚ)/4) :: ([] : List (ℕ × ℚ)),
        Prod.snd y ≤ pm) ∧
      (∀ (j : ℕ) (y : ℕ × ℚ), j < i →
        ((10, (1 : ℚ)/2) :: (20, (1 : ℚ)/2) :: (30, (1 : ℚ)/4) :: []).get? j = some y →
        Prod.snd y < pm)) :=
  ⟨by decide,
    (mostLikely_first_argmax
      ((10, (1 : ℚ)/2) :: (20, (1 : ℚ)/2) :: (30, (1 : ℚ)/4) :: [])).2 (by decide)⟩

/-! ## C4: the iterative-evaluation loop contract -/

/-- The k-th Bellman iterate starting from the all-zero vector. -/
def bellmanIter {n : ℕ} (P : Matrix (Fin n) (Fin n) ℚ) (r : Fin n → ℚ) (gamma : ℚ)
    (k : ℕ) : Fin n → ℚ :=
  (fun v => bellman_update v P r gamma)^[k] 0

/-- The infinity norm of the k-th update step from the all-zero start. -/
def bellmanDelta {n : ℕ} (P : Matrix (Fin n) (Fin n) ℚ) (r : Fin n → ℚ) (gamma : ℚ)
    (k : ℕ) : ℚ :=
  vecNormInf (bellmanIter P r gamma (k + 1) - bellmanIter P r gamma k)

theorem evalLoop_char {n : ℕ} (F : (Fin n → ℚ) → (Fin n → ℚ)) (thresh : ℚ) :
    ∀ (fuel : ℕ) (v : Fin n → ℚ),
      (∃ k, 1 ≤ k ∧ k ≤ fuel ∧ evalLoop F thresh fuel v = F^[k] v ∧
        vecNormInf (F^[k] v - F^[k - 1] v) < thresh ∧
        ∀ j, j + 1 < k → ¬ vecNormInf (F^[j + 1] v - F^[j] v) < thresh) ∨
      (evalLoop F thresh fuel v = F^[fuel] v ∧
        ∀ j, j < fuel → ¬ vecNormInf (F^[j + 1] v - F^[j] v) < thresh) := by
  intro fuel
  induction fuel with
  | zero =>
    intro v
    right
    exact ⟨rfl, by omega⟩
  | succ m ih =>
    intro v
    by_cases h0 : vecNormInf (F v - v) < thresh
    · left
      refine ⟨1, le_refl _, by omega, by simp [evalLoop, h0], by simpa using h0, by omega⟩
    · have hloop : evalLoop F thresh (m + 1) v = evalLoop F thresh m (F v) := by
        simp [evalLoop, h0]
      have hshift : ∀ j : ℕ, F^[j] (F v) = F^[j + 1] v := by
        intro j
        exact (Function.iterate_succ_apply F j v).symm
      rcases ih (F v) with ⟨k, hk1, hkm, heq, hlt, hmin⟩ | ⟨heq, hall⟩
      · left
        refine ⟨k + 1, by omega, by omega, ?_, ?_, ?_⟩
        · rw [hloop, heq, hshift]
        · have h2 : F^[k - 1] (F v) = F^[k] v := by
            rw [hshift]
            congr 1
            omega
          rw [Nat.add_sub_cancel, ← hshift k, ← h2]
          exact hlt
        · intro j hj
          cases j with
          | zero => simpa using h0
          | succ i =>
            have := hmin i (by omega)
            rw [hshift, hshift] at this
            exact this
      · right
        constructor
        · rw [hloop, heq, hshift]
        · intro j hj
          cases j with
          | zero => simpa using h0
          | succ i =>
            have := hall i (by omega)
            rw [hshift, hshift] at this
            exact this

/-- C4: `iterative_policy_evaluation` starts from the zero vector,
repeatedly applies `v <- r + gamma*P*v`, and stops as soon as the
infinity norm of the update step falls below the threshold
(`eps*(1-gamma)/gamma` for `gamma < 1`, `eps` for `gamma = 1`); it
performs at most `maxIters` updates and, when the cap is reached without
meeting the threshold, returns the last computed iterate (it is a total
function: no error, no non-convergence signal). -/
theorem iterative_policy_evaluation_contract {n : ℕ} (P : Matrix (Fin n) (Fin n) ℚ)
    (r : Fin n → ℚ) (gamma eps : ℚ) (maxIters : ℕ) (hγ1 : gamma ≤ 1) :
    ∃ thresh : ℚ,
      (gamma = 1 → thresh = eps) ∧
      (gamma < 1 → thresh = eps * (1 - gamma) / gamma) ∧
      ((∃ k, 1 ≤ k ∧ k ≤ maxIters ∧
          iterative_policy_evaluation P r gamma eps maxIters = bellmanIter P r gamma k ∧
          bellmanDelta P r gamma (k - 1) < thresh ∧
          ∀ j, j + 1 < k → ¬ bellmanDelta P r gamma j < thresh) ∨
        (iterative_policy_evaluation P r gamma eps maxIters =
            bellmanIter P r gamma maxIters ∧
          ∀ j, j < maxIters → ¬ bellmanDelta P r gamma j < thresh)) := by
  refine ⟨if gamma = 1 then eps else eps * (1 - gamma) / gamma, ?_, ?_, ?_⟩
  · intro h; simp [h]
  · intro h; simp [ne_of_lt h]
  · have hchar := evalLoop_char (fun v => bellman_update v P r gamma)
      (if gamma = 1 then eps else eps * (1 - gamma) / gamma) maxIters 0
    rcases hchar with ⟨k, hk1, hkm, heq, hlt, hmin⟩ | ⟨heq, hall⟩
    · left
      refine ⟨k, hk1, hkm, heq, ?_, ?_⟩
      · have hk : k - 1 + 1 = k := by omega
        unfold bellmanDelta bellmanIter
        rw [hk]
        exact hlt
      · intro j hj
        unfold bellmanDelta bellmanIter
        exact hmin j hj
    · right
      exact ⟨heq, fun j hj => hall j hj⟩

/-- Witness for C4: the contract instantiated on the concrete one-state
chain `P = [[1]]`, `r = [0]`, `gamma = 1/2`, `eps = 1`, three iterations. -/
theorem iterative_policy_evaluation_contract_witness :
    ∃ thresh : ℚ,
      ((1 : ℚ)/2 = 1 → thresh = 1) ∧
      ((1 : ℚ)/2 < 1 → thresh = 1 * (1 - 1/2) / (1/2)) ∧
      ((∃ k, 1 ≤ k ∧ k ≤ 3 ∧
          iterative_policy_evaluation (Matrix.of fun _ _ : Fin 1 => (1 : ℚ))
              (fun _ => 0) (1/2) 1 3 =
            bellmanIter (Matrix.of fun _ _ : Fin 1 => (1 : ℚ)) (fun _ => 0) (1/2) k ∧
          bellmanDelta (Matrix.of fun _ _ : Fin 1 => (1 : ℚ)) (fun _ => 0) (1/2) (k - 1)
              < thresh ∧
          ∀ j, j + 1 < k →
            ¬ bellmanDelta (Matrix.of fun _ _ : Fin 1 => (1 : ℚ)) (fun _ => 0) (1/2) j
              < thresh) ∨
        (iterative_policy_evaluation (Matrix.of fun _ _ : Fin 1 => (1 : ℚ))
              (fun _ => 0) (1/2) 1 3 =
            bellmanIter (Matrix.of fun _ _ : Fin 1 => (1 : ℚ)) (fun _ => 0) (1/2) 3 ∧
          ∀ j, j < 3 →
            ¬ bellmanDelta (Matrix.of fun _ _ : Fin 1 => (1 : ℚ)) (fun _ => 0) (1/2) j
              < thresh)) :=
  iterative_policy_evaluation_contract (Matrix.of fun _ _ : Fin 1 => (1 : ℚ))
    (fun _ => 0) (1/2) 1 3 (by norm_num)

/-! ## Infinity-norm lemmas -/

theorem foldr_max_nonneg : ∀ l : List ℚ, 0 ≤ l.foldr max 0 := by
  intro l
  induction l with
  | nil => exact le_refl 0
  | cons a t ih => exact le_trans ih (le_max_right a _)

theorem le_foldr_max : ∀ (l : List ℚ) (x : ℚ), x ∈ l → x ≤ l.foldr max 0 := by
  intro l
  induction l with
  | nil => intro x h; simp at h
  | cons a t ih =>
    intro x h
    rcases List.mem_cons.mp h with rfl | h'
    · exact le_max_left _ _
    · exact le_trans (ih x h') (le_max_right _ _)

theorem foldr_max_le : ∀ (l : List ℚ) (c : ℚ), 0 ≤ c → (∀ x ∈ l, x ≤ c) →
    l.foldr max 0 ≤ c := by
  intro l
  induction l with
  | nil => intro c hc _; exact hc
  | cons a t ih =>
    intro c hc h
    exact max_le (h a (by simp)) (ih c hc (fun x hx => h x (by simp [hx])))

theorem vecNormInf_nonneg {n : ℕ} (v : Fin n → ℚ) : 0 ≤ vecNormInf v :=
  foldr_max_nonneg _

theorem abs_le_vecNormInf {n : ℕ} (v : Fin n → ℚ) (i : Fin n) : |v i| ≤ vecNormInf v :=
  le_foldr_max _ _ (by simp [List.mem_ofFn])

theorem vecNormInf_le {n : ℕ} (v : Fin n → ℚ) (c : ℚ) (hc : 0 ≤ c)
    (h : ∀ i, |v i| ≤ c) : vecNormInf v ≤ c := by
  apply foldr_max_le _ _ hc
  intro x hx
  rw [List.mem_ofFn] at hx
  obtain ⟨i, rfl⟩ := hx
  exact h i

theorem vecNormInf_sub_comm {n : ℕ} (x y : Fin n → ℚ) :
    vecNormInf (x - y) = vecNormInf (y - x) := by
  unfold vecNormInf
  have hfn : (fun i => |(x - y) i|) = (fun i => |(y - x) i|) := by
    funext i
    simp only [Pi.sub_apply]
    exact abs_sub_comm _ _
  rw [hfn]

theorem vecNormInf_sub_le {n : ℕ} (x y z : Fin n → ℚ) :
    vecNormInf (x - z) ≤ vecNormInf (x - y) + vecNormInf (y - z) := by
  apply vecNormInf_le _ _ (add_nonneg (vecNormInf_nonneg _) (vecNormInf_nonneg _))
  intro i
  calc |(x - z) i| = |(x i - y i) + (y i - z i)| := by
        rw [Pi.sub_apply]
        congr 1
        ring
    _ ≤ |x i - y i| + |y i - z i| := abs_add _ _
    _ ≤ vecNormInf (x - y) + vecNormInf (y - z) := by
        have h1 : |x i - y i| = |(x - y) i| := by simp [Pi.sub_apply]
        have h2 : |y i - z i| = |(y - z) i| := by simp [Pi.sub_apply]
        rw [h1, h2]
        exact add_le_add (abs_le_vecNormInf _ _) (abs_le_vecNormInf _ _)

/-- Row-stochastic nonnegative matrices are contractions in the infinity
norm. -/
theorem mulVec_vecNormInf_le {n : ℕ} (P : Matrix (Fin n) (Fin n) ℚ)
    (h0 : ∀ i j, 0 ≤ P i j) (h1 : ∀ i, ∑ j, P i j = 1) (x : Fin n → ℚ) :
    vecNormInf (P.mulVec x) ≤ vecNormInf x := by
  apply vecNormInf_le _ _ (vecNormInf_nonneg x)
  intro i
  have hexp : P.mulVec x i = ∑ j, P i j * x j := rfl
  calc |P.mulVec x i| = |∑ j, P i j * x j| := by rw [hexp]
    _ ≤ ∑ j, |P i j * x j| := Finset.abs_sum_le_sum_abs _ _
    _ = ∑ j, P i j * |x j| := by
        apply Finset.sum_congr rfl
        intro j _
        rw [abs_mul, abs_of_nonneg (h0 i j)]
    _ ≤ ∑ j, P i j * vecNormInf x := by
        apply Finset.sum_le_sum
        intro j _
        exact mul_le_mul_of_nonneg_left (abs_le_vecNormInf _ _) (h0 i j)
    _ = vecNormInf x := by rw [← Finset.sum_mul, h1 i, one_mul]

theorem vecNormInf_smul_le {n : ℕ} (c : ℚ) (hc : 0 ≤ c) (x : Fin n → ℚ) :
    vecNormInf (c • x) ≤ c * vecNormInf x := by
  apply vecNormInf_le _ _ (mul_nonneg hc (vecNormInf_nonneg x))
  intro i
  have : |(c • x) i| = c * |x i| := by
    simp only [Pi.smul_apply, smul_eq_mul, abs_mul, abs_of_nonneg hc]
  rw [this]
  exact mul_le_mul_of_nonneg_left (abs_le_vecNormInf _ _) hc

/-! ## C2: exact vs. iterative evaluation -/

/-- When the linear solve succeeds, the returned vector solves the
Bellman system: it is a fixed point of the Bellman update. -/
theorem exact_policy_evaluation_fixed {n : ℕ} (P : Matrix (Fin n) (Fin n) ℚ)
    (r : Fin n → ℚ) (gamma : ℚ) (ve : Fin n → ℚ)
    (hex : exact_policy_evaluation P r gamma = some ve) :
    bellman_update ve P r gamma = ve := by
  unfold exact_policy_evaluation at hex
  by_cases hdet : ((1 : Matrix (Fin n) (Fin n) ℚ) - gamma • P).det = 0
  · simp [hdet] at hex
  · simp only [hdet, if_false, Option.some.injEq] at hex
    set A : Matrix (Fin n) (Fin n) ℚ := 1 - gamma • P with hA
    have hsolve : A.mulVec ve = r := by
      rw [← hex]
      rw [Matrix.mulVec_smul]
      rw [Matrix.mulVec_mulVec]
      rw [Matrix.mul_adjugate]
      rw [Matrix.smul_mulVec_assoc, Matrix.one_mulVec]
      rw [smul_smul, inv_mul_cancel₀ hdet, one_smul]
    have hexpand : A.mulVec ve = ve - gamma • P.mulVec ve := by
      rw [hA, Matrix.sub_mulVec, Matrix.one_mulVec, Matrix.smul_mulVec_assoc]
    unfold bellman_update
    rw [hexpand] at hsolve
    rw [← hsolve]
    abel

/-- The deterministic break case of the evaluation loop: if some update
step within the iteration budget falls below the threshold, the loop
returns an iterate whose last step was below the threshold. -/
theorem evalLoop_break {n : ℕ} (F : (Fin n → ℚ) → (Fin n → ℚ)) (thresh : ℚ)
    (fuel : ℕ) (v : Fin n → ℚ)
    (h : ∃ k, k < fuel ∧ vecNormInf (F^[k + 1] v - F^[k] v) < thresh) :
    ∃ K, evalLoop F thresh fuel v = F^[K + 1] v ∧
      vecNormInf (F^[K + 1] v - F^[K] v) < thresh := by
  rcases evalLoop_char F thresh fuel v with ⟨k, hk1, _, heq, hlt, _⟩ | ⟨_, hall⟩
  · refine ⟨k - 1, ?_, ?_⟩
    · rw [heq]
      congr 1
      omega
    · have hk : k - 1 + 1 = k := by omega
      rw [hk]
      exact hlt
  · exfalso
    obtain ⟨k, hkf, hklt⟩ := h
    exact hall k hkf hklt

/-- C2 (amended): for a row-stochastic nonnegative `P` and `0 < gamma < 1`,
whenever the exact linear solve succeeds *and* the iterative evaluation
meets its stopping threshold within the iteration budget, the two returned
vectors differ by less than `eps` in the infinity norm.  (Without the
threshold-termination hypothesis the bound can fail: see the
counterexample where the iteration cap is reached.) -/
theorem exact_iterative_agree {n : ℕ} (P : Matrix (Fin n) (Fin n) ℚ) (r : Fin n → ℚ)
    (gamma eps : ℚ) (maxIters : ℕ) (hγ0 : 0 < gamma) (hγ1 : gamma < 1)
    (h0 : ∀ i j, 0 ≤ P i j) (h1 : ∀ i, ∑ j, P i j = 1) (ve : Fin n → ℚ)
    (hex : exact_policy_evaluation P r gamma = some ve)
    (hstop : ∃ k, k < maxIters ∧
      bellmanDelta P r gamma k < eps * (1 - gamma) / gamma) :
    vecNormInf (iterative_policy_evaluation P r gamma eps maxIters - ve) < eps := by
  have hne : gamma ≠ 1 := ne_of_lt hγ1
  have h1γ : 0 < 1 - gamma := by linarith
  set F : (Fin n → ℚ) → (Fin n → ℚ) := fun v => bellman_update v P r gamma with hF
  have hiter : iterative_policy_evaluation P r gamma eps maxIters =
      evalLoop F (eps * (1 - gamma) / gamma) maxIters 0 := by
    unfold iterative_policy_evaluation
    rw [if_neg hne]
  obtain ⟨K, heq, hlt⟩ := evalLoop_break F (eps * (1 - gamma) / gamma) maxIters 0
    (by
      obtain ⟨k, hkf, hklt⟩ := hstop
      exact ⟨k, hkf, hklt⟩)
  rw [hiter, heq]
  set w : Fin n → ℚ := F^[K + 1] 0 with hw
  set u : Fin n → ℚ := F^[K] 0 with hu
  set d : ℚ := vecNormInf (w - u) with hd
  set a : ℚ := vecNormInf (w - ve) with ha
  have hfix : F ve = ve := exact_policy_evaluation_fixed P r gamma ve hex
  have hFdiff : ∀ x y : Fin n → ℚ, F x - F y = gamma • P.mulVec (x - y) := by
    intro x y
    simp only [hF, bellman_update]
    rw [Matrix.mulVec_sub]
    funext i
    simp only [Pi.add_apply, Pi.sub_apply, Pi.smul_apply, smul_eq_mul]
    ring
  have hcontract : a ≤ gamma * vecNormInf (u - ve) := by
    have hwv : w - ve = gamma • P.mulVec (u - ve) := by
      have h' : w - ve = F u - F ve := by
        rw [hw, Function.iterate_succ_apply', ← hu, hfix]
      rw [h', hFdiff]
    calc a = vecNormInf (gamma • P.mulVec (u - ve)) := by rw [ha, hwv]
      _ ≤ gamma * vecNormInf (P.mulVec (u - ve)) :=
          vecNormInf_smul_le gamma (le_of_lt hγ0) _
      _ ≤ gamma * vecNormInf (u - ve) :=
          mul_le_mul_of_nonneg_left (mulVec_vecNormInf_le P h0 h1 _) (le_of_lt hγ0)
  have htri : vecNormInf (u - ve) ≤ d + a := by
    calc vecNormInf (u - ve) ≤ vecNormInf (u - w) + vecNormInf (w - ve) :=
          vecNormInf_sub_le u w ve
      _ = d + a := by rw [vecNormInf_sub_comm u w]
  have hkey : a * (1 - gamma) ≤ gamma * d := by nlinarith
  have hγd : d * gamma < eps * (1 - gamma) := (lt_div_iff₀ hγ0).mp hlt
  have : a * (1 - gamma) < eps * (1 - gamma) := by nlinarith
  exact (mul_lt_mul_right h1γ).mp this

theorem vecNormInf_fin_one (v : Fin 1 → ℚ) : vecNormInf v = |v 0| := by
  unfold vecNormInf
  simp only [List.ofFn_succ, List.ofFn_zero, List.foldr_cons, List.foldr_nil]
  exact max_eq_left (abs_nonneg _)

/-- Witness for the amended C2 on the concrete one-state chain
`P = [[1]]`, `r = 0`, `gamma = 1/2`, `eps = 1`: the threshold is met at
the first update and the two evaluations agree within `eps`. -/
theorem exact_iterative_agree_witness :
    vecNormInf (iterative_policy_evaluation (Matrix.of fun _ _ : Fin 1 => (1 : ℚ))
      (0 : Fin 1 → ℚ) (1/2) 1 5 - (0 : Fin 1 → ℚ)) < 1 := by
  have hex : exact_policy_evaluation (Matrix.of fun _ _ : Fin 1 => (1 : ℚ))
      (0 : Fin 1 → ℚ) (1/2) = some (0 : Fin 1 → ℚ) := by
    have hdet : ((1 : Matrix (Fin 1) (Fin 1) ℚ) -
        (1/2 : ℚ) • Matrix.of (fun _ _ => (1 : ℚ))).det = 1/2 := by
      rw [Matrix.det_fin_one]
      simp [Matrix.sub_apply, Matrix.one_apply]
      norm_num
    simp only [exact_policy_evaluation, hdet]
    norm_num [Matrix.mulVec_zero]
  have hstop : ∃ k, k < 5 ∧
      bellmanDelta (Matrix.of fun _ _ : Fin 1 => (1 : ℚ)) (0 : Fin 1 → ℚ) (1/2) k
        < 1 * (1 - 1/2) / (1/2) := by
    refine ⟨0, by omega, ?_⟩
    have hz : bellmanDelta (Matrix.of fun _ _ : Fin 1 => (1 : ℚ)) (0 : Fin 1 → ℚ) (1/2) 0
        = 0 := by
      unfold bellmanDelta bellmanIter
      rw [vecNormInf_fin_one]
      simp [bellman_update, Matrix.mulVec_zero]
    rw [hz]
    norm_num
  exact exact_iterative_agree _ _ _ _ 5 (by norm_num) (by norm_num)
    (fun i j => by norm_num [Matrix.of_apply])
    (fun i => by simp [Matrix.of_apply])
    0 hex hstop

/-- One-state chain used to exhibit the iteration-cap divergence:
`P = [[1]]`. -/
def P1cex : Matrix (Fin 1) (Fin 1) ℚ := Matrix.of fun _ _ => 1

/-- Reward vector `r = [1]` for the one-state chain. -/
def r1cex : Fin 1 → ℚ := fun _ => 1

/-- Discount `gamma = 1 - 10^-10`, inside `(0,1)` but so close to `1`
that the default iteration budget cannot meet the stopping threshold. -/
def gammaCex : ℚ := 1 - 1/10^10

theorem bellmanIter_one_state (γ : ℚ) :
    ∀ k, bellmanIter P1cex r1cex γ k = fun _ => ∑ j ∈ Finset.range k, γ ^ j := by
  intro k
  induction k with
  | zero =>
    unfold bellmanIter
    simp
    rfl
  | succ m ih =>
    unfold bellmanIter at ih ⊢
    rw [Function.iterate_succ_apply', ih]
    funext i
    simp only [bellman_update, Pi.add_apply, Pi.smul_apply, smul_eq_mul,
      Matrix.mulVec, Matrix.dotProduct, Fin.sum_univ_one, P1cex, r1cex, Matrix.of_apply,
      one_mul]
    rw [Finset.sum_range_succ']
    simp only [pow_succ, pow_zero]
    rw [← Finset.sum_mul]
    ring

theorem evalLoop_no_break {n : ℕ} (F : (Fin n → ℚ) → (Fin n → ℚ)) (thresh : ℚ)
    (fuel : ℕ) (v : Fin n → ℚ)
    (h : ∀ k, k < fuel → ¬ vecNormInf (F^[k + 1] v - F^[k] v) < thresh) :
    evalLoop F thresh fuel v = F^[fuel] v := by
  rcases evalLoop_char F thresh fuel v with ⟨k, hk1, hkm, _, hlt, _⟩ | ⟨heq, _⟩
  · exfalso
    have hk : k - 1 + 1 = k := by omega
    exact h (k - 1) (by omega) (by rw [hk]; exact hlt)
  · exact heq

theorem gammaCex_pow_ge (k : ℕ) (hk : k ≤ 100000) : 1/2 ≤ gammaCex ^ k := by
  have hb : (1 : ℚ) + (k : ℚ) * (-(1/10^10)) ≤ (1 + (-(1/10^10))) ^ k :=
    one_add_mul_le_pow (by norm_num) k
  have hcast : (k : ℚ) ≤ 100000 := by exact_mod_cast hk
  have h1 : (1 : ℚ) + (-(1/10^10)) = gammaCex := by unfold gammaCex; ring
  rw [h1] at hb
  nlinarith

theorem gammaCex_pos : (0 : ℚ) < gammaCex := by unfold gammaCex; norm_num

theorem gammaCex_lt_one : gammaCex < 1 := by unfold gammaCex; norm_num

/-- Counterexample for C2: on the one-state chain with
`gamma = 1 - 10^-10` the exact solve returns `10^10` while the iterative
evaluation, with the default `eps = 1e-6` and `max_iters = 100000`,
exhausts its iteration budget and returns a value at most `10^5`, so the
two results differ by more than `10^9` — more than `10^15` times `eps`,
not a tolerance proportional to `eps`. -/
theorem exact_iterative_diverge_cex :
    exact_policy_evaluation P1cex r1cex gammaCex = some (fun _ => (10 : ℚ)^10) ∧
    iterative_policy_evaluation P1cex r1cex gammaCex defaultEps defaultMaxIters 0
      ≤ 10^5 ∧
    (10 : ℚ)^10 -
      iterative_policy_evaluation P1cex r1cex gammaCex defaultEps defaultMaxIters 0
      > 10^9 := by
  have hexact : exact_policy_evaluation P1cex r1cex gammaCex
      = some (fun _ => (10 : ℚ)^10) := by
    have hdet : ((1 : Matrix (Fin 1) (Fin 1) ℚ) - gammaCex • P1cex).det = 1/10^10 := by
      rw [Matrix.det_fin_one]
      simp [Matrix.sub_apply, Matrix.one_apply, P1cex, gammaCex]
    simp only [exact_policy_evaluation, hdet]
    norm_num
    funext i
    simp only [Pi.smul_apply, smul_eq_mul, r1cex]
    norm_num
  have hne : gammaCex ≠ 1 := ne_of_lt gammaCex_lt_one
  have thresh_le : (defaultEps * (1 - gammaCex) / gammaCex : ℚ) ≤ 2/10^16 := by
    unfold defaultEps gammaCex
    rw [div_le_iff₀ (by norm_num)]
    norm_num
  have hnobreak :
      iterative_policy_evaluation P1cex r1cex gammaCex defaultEps defaultMaxIters
        = bellmanIter P1cex r1cex gammaCex defaultMaxIters := by
    unfold iterative_policy_evaluation bellmanIter
    rw [if_neg hne]
    apply evalLoop_no_break
    intro k hk
    rw [not_lt]
    have hdelta :
        (fun v => bellman_update v P1cex r1cex gammaCex)^[k + 1] 0 -
          (fun v => bellman_update v P1cex r1cex gammaCex)^[k] 0
          = fun _ : Fin 1 => gammaCex ^ k := by
      have h1 := bellmanIter_one_state gammaCex (k + 1)
      have h2 := bellmanIter_one_state gammaCex k
      unfold bellmanIter at h1 h2
      rw [h1, h2]
      funext i
      simp only [Pi.sub_apply]
      rw [Finset.sum_range_succ]
      ring
    rw [hdelta, vecNormInf_fin_one]
    have hpow : 1/2 ≤ gammaCex ^ k := gammaCex_pow_ge k (by
      unfold defaultMaxIters at hk
      omega)
    have habs : |gammaCex ^ k| = gammaCex ^ k :=
      abs_of_nonneg (pow_nonneg (le_of_lt gammaCex_pos) k)
    rw [habs]
    calc defaultEps * (1 - gammaCex) / gammaCex ≤ 2/10^16 := thresh_le
      _ ≤ 1/2 := by norm_num
      _ ≤ gammaCex ^ k := hpow
  have hsum_le : iterative_policy_evaluation P1cex r1cex gammaCex defaultEps
      defaultMaxIters 0 ≤ 10^5 := by
    rw [hnobreak, bellmanIter_one_state]
    calc (∑ j ∈ Finset.range defaultMaxIters, gammaCex ^ j)
        ≤ (Finset.range defaultMaxIters).card • (1 : ℚ) := by
          apply Finset.sum_le_card_nsmul
          intro j _
          exact pow_le_one₀ (le_of_lt gammaCex_pos) (le_of_lt gammaCex_lt_one)
      _ = 100000 := by
          rw [Finset.card_range]
          unfold defaultMaxIters
          norm_num
      _ ≤ 10^5 := by norm_num
  refine ⟨hexact, hsum_le, ?_⟩
  linarith

/-! ## Chain-builder lemmas (C1, C3, C10) -/

theorem accumTrans_nonneg {σ : Type} [DecidableEq σ] {n : ℕ}
    (idx : σ → Option (Fin n)) (w : ℚ) (hw : 0 ≤ w) :
    ∀ (tr : List (σ × ℚ)) (row row' : Fin n → ℚ),
      (∀ x ∈ tr, 0 ≤ Prod.snd x) → (∀ j, 0 ≤ row j) →
      accumTrans idx w tr row = some row' → ∀ j, 0 ≤ row' j := by
  intro tr
  induction tr with
  | nil =>
    intro row row' _ hrow h
    simp only [accumTrans, Option.some.injEq] at h
    rw [← h]
    exact hrow
  | cons hd rest ih =>
    obtain ⟨ns, p⟩ := hd
    intro row row' htr hrow h
    simp only [accumTrans] at h
    cases hidx : idx ns with
    | none => rw [hidx] at h; cases h
    | some j =>
      rw [hidx] at h
      refine ih _ _ (fun x hx => htr x (by simp [hx])) ?_ h
      intro k
      rcases eq_or_ne k j with rfl | hkj
      · rw [Function.update_same]
        exact add_nonneg (hrow k) (mul_nonneg hw (htr (ns, p) (by simp)))
      · rw [Function.update_noteq hkj]
        exact hrow k

theorem accumStoch_nonneg {σ α : Type} [DecidableEq σ] [DecidableEq α] {n : ℕ}
    (mdp : FinMDP σ α) (idx : σ → Option (Fin n)) (s : σ)
    (htr : ∀ a, ∀ x ∈ mdp.transition s a, 0 ≤ Prod.snd x) :
    ∀ (probs : List (α × ℚ)) (row row' : Fin n → ℚ),
      (∀ j, 0 ≤ row j) → accumStoch mdp idx s probs row = some row' → ∀ j, 0 ≤ row' j := by
  intro probs
  induction probs with
  | nil =>
    intro row row' hrow h
    simp only [accumStoch, Option.some.injEq] at h
    rw [← h]
    exact hrow
  | cons hd rest ih =>
    obtain ⟨a, pa⟩ := hd
    intro row row' hrow h
    simp only [accumStoch] at h
    by_cases hpa : pa ≤ 0
    · rw [if_pos hpa] at h
      exact ih _ _ hrow h
    · rw [if_neg hpa] at h
      cases hacc : accumTrans idx pa (mdp.transition s a) row with
      | none => rw [hacc] at h; cases h
      | some row1 =>
        rw [hacc] at h
        exact ih _ _
          (accumTrans_nonneg idx pa (le_of_lt (lt_of_not_le hpa)) _ row row1
            (htr a) hrow hacc) h

/-- Each row produced by the loop body from a zero row either sums to 0
or sums to 1 within the `1e-8` tolerance. -/
theorem buildRow_sum {σ α : Type} [DecidableEq σ] [DecidableEq α] {n : ℕ}
    (mdp : FinMDP σ α) (policy : PolicyFn σ α) (idx : σ → Option (Fin n))
    (absorbA : α) (absorbS : σ) (s : σ)
    (htr : ∀ a, ∀ x ∈ mdp.transition s a, 0 ≤ Prod.snd x) (row' : Fin n → ℚ)
    (h : buildRow mdp policy idx absorbA absorbS s (fun _ => 0) = some row') :
    (∑ j, row' j = 0) ∨ |(∑ j, row' j) - 1| ≤ 1 / 100000000 := by
  unfold buildRow at h
  by_cases hterm : mdp.actions s = [absorbA]
  · rw [if_pos hterm] at h
    cases hj : idx absorbS with
    | none => rw [hj] at h; cases h
    | some j =>
      rw [hj] at h
      simp only [Option.map_some', Option.some.injEq] at h
      right
      rw [← h]
      have hsum : (∑ k, Function.update (fun _ : Fin n => (0 : ℚ)) j 1 k) = 1 := by
        rw [Finset.sum_update_of_mem (Finset.mem_univ j)]
        simp
      rw [hsum]
      norm_num
  · rw [if_neg hterm] at h
    have hmain : ∀ row : Fin n → ℚ, (∀ j, 0 ≤ row j) →
        ((let rs := ∑ j, row j
          if 0 < rs ∧ 1 / 100000000 < |rs - 1| then (fun j => row j / rs) else row) = row') →
        (∑ j, row' j = 0) ∨ |(∑ j, row' j) - 1| ≤ 1 / 100000000 := by
      intro row hrow hres
      simp only at hres
      by_cases hc : 0 < (∑ j, row j) ∧ 1 / 100000000 < |(∑ j, row j) - 1|
      · rw [if_pos hc] at hres
        right
        rw [← hres]
        rw [← Finset.sum_div, div_self (ne_of_gt hc.1)]
        norm_num
      · rw [if_neg hc] at hres
        rw [← hres]
        have hnn : 0 ≤ ∑ j, row j := Finset.sum_nonneg (fun j _ => hrow j)
        rcases eq_or_lt_of_le hnn with heq | hpos
        · left; exact heq.symm
        · right
          rw [not_and_or] at hc
          rcases hc with hc1 | hc2
          · exact absurd hpos hc1
          · exact le_of_not_lt hc2
    cases hap : policy.action_probs with
    | some ap =>
      rw [hap] at h
      dsimp only at h
      by_cases hemp : ap s = []
      · rw [if_pos hemp] at h
        cases hact : policy.act s with
        | none => rw [hact] at h; dsimp only at h; cases h
        | some a =>
          rw [hact] at h
          dsimp only at h
          cases hacc : accumTrans idx 1 (mdp.transition s a) (fun _ => 0) with
          | none => rw [hacc] at h; cases h
          | some row =>
            rw [hacc] at h
            simp only [Option.map_some', Option.some.injEq] at h
            exact hmain row
              (accumTrans_nonneg idx 1 (by norm_num) _ _ row (htr a)
                (fun _ => le_refl 0) hacc) h
      · rw [if_neg hemp] at h
        cases hacc : accumStoch mdp idx s (ap s) (fun _ => 0) with
        | none => rw [hacc] at h; cases h
        | some row =>
          rw [hacc] at h
          simp only [Option.map_some', Option.some.injEq] at h
          exact hmain row
            (accumStoch_nonneg mdp idx s htr _ _ row (fun _ => le_refl 0) hacc) h
    | none =>
      rw [hap] at h
      dsimp only at h
      cases hact : policy.act s with
      | none => rw [hact] at h; dsimp only at h; cases h
      | some a =>
        rw [hact] at h
        dsimp only at h
        cases hacc : accumTrans idx 1 (mdp.transition s a) (fun _ => 0) with
        | none => rw [hacc] at h; cases h
        | some row =>
          rw [hacc] at h
          simp only [Option.map_some', Option.some.injEq] at h
          exact hmain row
            (accumTrans_nonneg idx 1 (by norm_num) _ _ row (htr a)
              (fun _ => le_refl 0) hacc) h

/-- Row isolation: with an injective index and no duplicate states, the
final matrix's row for each listed state is exactly the loop body's
output on that state starting from that row's initial contents, and rows
of unlisted indices are untouched. -/
theorem buildLoop_rows {σ α : Type} [DecidableEq σ] [DecidableEq α] {n : ℕ}
    (mdp : FinMDP σ α) (policy : PolicyFn σ α) (idx : σ → Option (Fin n))
    (absorbA : α) (absorbS : σ)
    (hinj : ∀ s s' i, idx s = some i → idx s' = some i → s = s') :
    ∀ (rest : List σ) (P0 P : Fin n → Fin n → ℚ),
      rest.Nodup →
      buildLoop mdp policy idx absorbA absorbS rest P0 = some P →
      (∀ s ∈ rest, ∀ i, idx s = some i →
        ∃ row, buildRow mdp policy idx absorbA absorbS s (P0 i) = some row ∧ P i = row) ∧
      (∀ i : Fin n, (∀ s ∈ rest, idx s ≠ some i) → P i = P0 i) := by
  intro rest
  induction rest with
  | nil =>
    intro P0 P _ h
    simp only [buildLoop, Option.some.injEq] at h
    exact ⟨by simp, fun i _ => by rw [← h]⟩
  | cons s rest ih =>
    intro P0 P hnd h
    simp only [buildLoop] at h
    cases hidx : idx s with
    | none => rw [hidx] at h; cases h
    | some i0 =>
      rw [hidx] at h
      dsimp only at h
      cases hrow : buildRow mdp policy idx absorbA absorbS s (P0 i0) with
      | none => rw [hrow] at h; cases h
      | some row =>
        rw [hrow] at h
        dsimp only at h
        have hnds : s ∉ rest := (List.nodup_cons.mp hnd).1
        have hndr : rest.Nodup := (List.nodup_cons.mp hnd).2
        obtain ⟨ih1, ih2⟩ := ih (Function.update P0 i0 row) P hndr h
        have hnoti0 : ∀ s' ∈ rest, idx s' ≠ some i0 := by
          intro s' hs' hcontra
          exact hnds (hinj s s' i0 hidx hcontra ▸ hs')
        constructor
        · intro s' hs' i hi
          rcases List.mem_cons.mp hs' with rfl | hs''
          · have hii : i = i0 := by
              rw [hidx] at hi
              injection hi with hinj2
              exact hinj2.symm
            subst hii
            refine ⟨row, hrow, ?_⟩
            rw [ih2 i hnoti0, Function.update_same]
          · have hii : i ≠ i0 := by
              intro hcontra
              subst hcontra
              exact hnoti0 s' hs'' hi
            obtain ⟨row', hrow', hP⟩ := ih1 s' hs'' i hi
            refine ⟨row', ?_, hP⟩
            rw [← hrow']
            congr 1
            rw [Function.update_noteq hii]
        · intro i hni
          have hii : i ≠ i0 := by
            intro hcontra
            subst hcontra
            exact hni s (by simp) hidx
          rw [ih2 i (fun s' hs' => hni s' (by simp [hs']))]
          rw [Function.update_noteq hii]

/-- If some listed state makes the loop body fail on every starting row,
the whole loop fails. -/
theorem buildLoop_none_of_mem {σ α : Type} [DecidableEq σ] [DecidableEq α] {n : ℕ}
    (mdp : FinMDP σ α) (policy : PolicyFn σ α) (idx : σ → Option (Fin n))
    (absorbA : α) (absorbS : σ) (s : σ)
    (hfail : ∀ row0, buildRow mdp policy idx absorbA absorbS s row0 = none) :
    ∀ (rest : List σ) (P0 : Fin n → Fin n → ℚ), s ∈ rest →
      buildLoop mdp policy idx absorbA absorbS rest P0 = none := by
  intro rest
  induction rest with
  | nil => intro P0 h; simp at h
  | cons t rest ih =>
    intro P0 hmem
    simp only [buildLoop]
    rcases List.mem_cons.mp hmem with rfl | hmem'
    · cases hidx : idx s with
      | none => rfl
      | some i =>
        dsimp only
        rw [hfail (P0 i)]
    · cases hidx : idx t with
      | none => rfl
      | some i =>
        dsimp only
        cases hrow : buildRow mdp policy idx absorbA absorbS t (P0 i) with
        | none => rfl
        | some row =>
          dsimp only
          exact ih _ hmem'

theorem dictIdx_inj {σ : Type} [DecidableEq σ] (l : List σ) :
    ∀ (s s' : σ) (i : Fin l.length), dictIdx l s = some i → dictIdx l s' = some i →
      s = s' := by
  intro s s' i h1 h2
  rw [← dictIdx_get h1, ← dictIdx_get h2]

theorem build_policy_Pr_loop {σ α : Type} [DecidableEq σ] [DecidableEq α]
    (mdp : FinMDP σ α) (policy : PolicyFn σ α) (absorbA : α) (absorbS : σ)
    (states : List σ) (P : Fin states.length → Fin states.length → ℚ)
    (r : Fin states.length → ℚ)
    (h : build_policy_Pr mdp policy absorbA absorbS states = some (P, r)) :
    buildLoop mdp policy (dictIdx states) absorbA absorbS states (fun _ _ => 0)
      = some P := by
  unfold build_policy_Pr at h
  cases hbl : buildLoop mdp policy (dictIdx states) absorbA absorbS states
      (fun _ _ => 0) with
  | none => rw [hbl] at h; cases h
  | some P' =>
    rw [hbl] at h
    dsimp only at h
    rw [Option.some.injEq, Prod.mk.injEq] at h
    rw [← h.1]

/-- For a duplicate-free state list, the row of a terminal state is the
indicator of the absorbing state's column. -/
theorem build_absorbing_row_aux {σ α : Type} [DecidableEq σ] [DecidableEq α]
    (mdp : FinMDP σ α) (policy : PolicyFn σ α) (absorbA : α) (absorbS : σ)
    (states : List σ) (hnd : states.Nodup) (s : σ) (hs : s ∈ states)
    (hterm : mdp.actions s = [absorbA])
    (P : Fin states.length → Fin states.length → ℚ) (r : Fin states.length → ℚ)
    (h : build_policy_Pr mdp policy absorbA absorbS states = some (P, r))
    (i : Fin states.length) (hi : dictIdx states s = some i)
    (jabs : Fin states.length) (hj : dictIdx states absorbS = some jabs) :
    P i = fun k => if k = jabs then 1 else 0 := by
  have hloop := build_policy_Pr_loop mdp policy absorbA absorbS states P r h
  obtain ⟨hrows, _⟩ := buildLoop_rows mdp policy (dictIdx states) absorbA absorbS
    (dictIdx_inj states) states _ P hnd hloop
  obtain ⟨row, hrow, hP⟩ := hrows s hs i hi
  unfold buildRow at hrow
  rw [if_pos hterm, hj] at hrow
  simp only [Option.map_some', Option.some.injEq] at hrow
  rw [hP, ← hrow]
  funext k
  rw [Function.update_apply]

/-- C1 (amended): for every enumerated state whose only legal action is
the distinguished absorb action, the built row of the transition matrix
places probability 1 on the column of the absorbing state tuple
`(ABSORB, ABSORB)` and 0 elsewhere; this is a self-loop `P[i,i] = 1`
precisely when the state is the absorbing state itself (the claimed
`P[i,i] = 1` fails for every other terminal state). -/
theorem build_policy_Pr_terminal_row {σ α : Type} [DecidableEq σ] [DecidableEq α]
    (mdp : FinMDP σ α) (policy : PolicyFn σ α) (absorbA : α) (absorbS : σ)
    (states : List σ) (hnd : states.Nodup) (s : σ) (hs : s ∈ states)
    (hterm : mdp.actions s = [absorbA])
    (P : Fin states.length → Fin states.length → ℚ) (r : Fin states.length → ℚ)
    (h : build_policy_Pr mdp policy absorbA absorbS states = some (P, r))
    (i : Fin states.length) (hi : dictIdx states s = some i)
    (jabs : Fin states.length) (hj : dictIdx states absorbS = some jabs) :
    P i jabs = 1 ∧ (∀ k, k ≠ jabs → P i k = 0) ∧ (P i i = 1 ↔ i = jabs) := by
  have haux := build_absorbing_row_aux mdp policy absorbA absorbS states hnd s hs hterm
    P r h i hi jabs hj
  rw [haux]
  refine ⟨by simp, fun k hk => by simp [hk], ?_⟩
  constructor
  · intro h1
    by_contra hne
    simp only [if_neg hne] at h1
    exact absurd h1 (by norm_num)
  · intro h1
    simp only [if_pos h1]

/-- C3: for a duplicate-free enumerated state list and an environment
reporting nonnegative transition probabilities (as the interface
requires), every row of the returned matrix either sums to exactly 0
(left unchanged, the malformed-input case) or sums to 1 within the
`1e-8` tolerance. -/
theorem build_policy_Pr_row_sums {σ α : Type} [DecidableEq σ] [DecidableEq α]
    (mdp : FinMDP σ α) (policy : PolicyFn σ α) (absorbA : α) (absorbS : σ)
    (states : List σ) (hnd : states.Nodup)
    (htr : ∀ s a, ∀ x ∈ mdp.transition s a, 0 ≤ Prod.snd x)
    (P : Fin states.length → Fin states.length → ℚ) (r : Fin states.length → ℚ)
    (h : build_policy_Pr mdp policy absorbA absorbS states = some (P, r)) :
    ∀ i, (∑ j, P i j = 0) ∨ |(∑ j, P i j) - 1| ≤ 1 / 100000000 := by
  intro i
  have hloop := build_policy_Pr_loop mdp policy absorbA absorbS states P r h
  obtain ⟨hrows, huntouched⟩ := buildLoop_rows mdp policy (dictIdx states) absorbA absorbS
    (dictIdx_inj states) states _ P hnd hloop
  by_cases hex : ∃ s, s ∈ states ∧ dictIdx states s = some i
  · obtain ⟨s, hs, hi⟩ := hex
    obtain ⟨row, hrow, hP⟩ := hrows s hs i hi
    rw [hP]
    exact buildRow_sum mdp policy _ absorbA absorbS s (htr s) row hrow
  · push_neg at hex
    have hz : P i = (fun _ _ => (0 : ℚ)) i := huntouched i hex
    rw [hz]
    left
    simp

/-- C10: whenever some listed state's only legal action is the absorb
action, the absorbing state tuple must itself be listed: without it the
builder fails with a key-lookup error (returns no matrix), while with it
the column lookup succeeds and (for a duplicate-free list) the terminal
row places all its mass on the absorbing state's column. -/
theorem build_policy_Pr_absorb_precondition {σ α : Type} [DecidableEq σ] [DecidableEq α]
    (mdp : FinMDP σ α) (policy : PolicyFn σ α) (absorbA : α) (absorbS : σ)
    (states : List σ) (s : σ) (hs : s ∈ states) (hterm : mdp.actions s = [absorbA]) :
    (absorbS ∉ states → build_policy_Pr mdp policy absorbA absorbS states = none) ∧
    (absorbS ∈ states → ∃ jabs, dictIdx states absorbS = some jabs ∧
      (states.Nodup → ∀ P r i,
        build_policy_Pr mdp policy absorbA absorbS states = some (P, r) →
        dictIdx states s = some i →
        P i jabs = 1 ∧ ∀ k, k ≠ jabs → P i k = 0)) := by
  constructor
  · intro hnotmem
    have hnone : dictIdx states absorbS = none := dictIdx_eq_none_of_not_mem hnotmem
    unfold build_policy_Pr
    rw [buildLoop_none_of_mem mdp policy (dictIdx states) absorbA absorbS s
      (fun row0 => by unfold buildRow; rw [if_pos hterm, hnone]; rfl) states _ hs]
  · intro hmem
    obtain ⟨jabs, hj⟩ := Option.isSome_iff_exists.mp (dictIdx_isSome_of_mem hmem)
    refine ⟨jabs, hj, ?_⟩
    intro hnd P r i h hi
    have haux := build_absorbing_row_aux mdp policy absorbA absorbS states hnd s hs hterm
      P r h i hi jabs hj
    rw [haux]
    exact ⟨by simp, fun k hk => by simp [hk]⟩

/-- A three-state environment shaped like the lake domain: state `0` is
the start with one move action `1` leading surely to the terminal state
`1` (a hole/goal analogue), whose only action is the absorb action `9`
leading to the absorbing state `2`, which self-loops under `9`. -/
def mdpC1 : FinMDP ℕ ℕ where
  start := 0
  actions := fun s => if s = 0 then [1] else [9]
  transition := fun s a =>
    if s = 0 ∧ a = 1 then [(1, 1)] else if a = 9 then [(2, 1)] else []
  reward := fun _ => 0

/-- A point policy on `mdpC1` always choosing the move action `1`. -/
def polC1 : PolicyFn ℕ ℕ := ⟨fun _ => some 1, none⟩

/-- Counterexample for C1: state `1` is an enumerated state whose only
legal action is the absorb action `9`, yet its row of the built matrix
has `P[1,1] = 0`, not `1`: all its mass sits on the absorbing state's
column 2 (`P[1,2] = 1`).  The self-loop described by the claim appears
only in the absorbing state's own row. -/
theorem build_policy_Pr_no_self_loop_cex :
    enumerate_states mdpC1 4 = [0, 1, 2] ∧
    mdpC1.actions 1 = [9] ∧
    (build_policy_Pr mdpC1 polC1 9 2 [0, 1, 2]).map
      (fun Pr => (Pr.1 ⟨1, by decide⟩ ⟨1, by decide⟩, Pr.1 ⟨1, by decide⟩ ⟨2, by decide⟩))
      = some (0, 1) := by
  refine ⟨by decide, by decide, ?_⟩
  decide

/-- Witness for the amended C1 on `mdpC1`: the terminal state `1` sits at
row index 1, the absorbing state `2` at column index 2, and the built row
is the indicator of column 2, with no self-loop since `1 ≠ 2`. -/
theorem build_policy_Pr_terminal_row_witness :
    ∃ (P : Fin ([0, 1, 2] : List ℕ).length → Fin ([0, 1, 2] : List ℕ).length → ℚ)
      (r : Fin ([0, 1, 2] : List ℕ).length → ℚ),
      build_policy_Pr mdpC1 polC1 9 2 [0, 1, 2] = some (P, r) ∧
      P ⟨1, by decide⟩ ⟨2, by decide⟩ = 1 ∧
      (∀ k, k ≠ ⟨2, by decide⟩ → P ⟨1, by decide⟩ k = 0) ∧
      (P ⟨1, by decide⟩ ⟨1, by decide⟩ = 1 ↔
        (⟨1, by decide⟩ : Fin ([0, 1, 2] : List ℕ).length) = ⟨2, by decide⟩) := by
  have hsome : (build_policy_Pr mdpC1 polC1 9 2 [0, 1, 2]).isSome = true := by decide
  obtain ⟨Pr0, hPr⟩ := Option.isSome_iff_exists.mp hsome
  obtain ⟨P, r⟩ := Pr0
  exact ⟨P, r, hPr,
    build_policy_Pr_terminal_row mdpC1 polC1 9 2 [0, 1, 2] (by decide) 1 (by decide)
      (by decide) P r hPr ⟨1, by decide⟩ (by decide) ⟨2, by decide⟩ (by decide)⟩

/-- Witness for C3 on `mdpC1`: the build succeeds on `[0, 1, 2]` and every
row sums to 0 or to 1 within the tolerance. -/
theorem mdpC1_trans_nonneg : ∀ (s a : ℕ), ∀ x ∈ mdpC1.transition s a,
    0 ≤ Prod.snd x := by
  intro s a x hx
  unfold mdpC1 at hx
  dsimp only at hx
  split_ifs at hx
  · simp only [List.mem_singleton] at hx
    subst hx
    norm_num
  · simp only [List.mem_singleton] at hx
    subst hx
    norm_num
  · simp at hx

theorem build_policy_Pr_row_sums_witness :
    ∃ (P : Fin ([0, 1, 2] : List ℕ).length → Fin ([0, 1, 2] : List ℕ).length → ℚ)
      (r : Fin ([0, 1, 2] : List ℕ).length → ℚ),
      build_policy_Pr mdpC1 polC1 9 2 [0, 1, 2] = some (P, r) ∧
      ∀ i, (∑ j, P i j = 0) ∨ |(∑ j, P i j) - 1| ≤ 1 / 100000000 := by
  have hsome : (build_policy_Pr mdpC1 polC1 9 2 [0, 1, 2]).isSome = true := by decide
  obtain ⟨Pr0, hPr⟩ := Option.isSome_iff_exists.mp hsome
  obtain ⟨P, r⟩ := Pr0
  exact ⟨P, r, hPr, build_policy_Pr_row_sums mdpC1 polC1 9 2 [0, 1, 2] (by decide)
    mdpC1_trans_nonneg P r hPr⟩

/-- Witness for C10 on `mdpC1` with the truncated state list `[0, 1]`
(the absorbing state `2` is not listed): the precondition theorem applies
to the terminal state `1`, and its first conjunct forces the builder to
fail on `[0, 1]`; on the full list `[0, 1, 2]` the lookup succeeds. -/
theorem build_policy_Pr_absorb_precondition_witness :
    ((2 : ℕ) ∉ ([0, 1] : List ℕ) →
      build_policy_Pr mdpC1 polC1 9 2 [0, 1] = none) ∧
    ((2 : ℕ) ∈ ([0, 1] : List ℕ) → ∃ jabs, dictIdx [0, 1] (2 : ℕ) = some jabs ∧
      (([0, 1] : List ℕ).Nodup → ∀ P r i,
        build_policy_Pr mdpC1 polC1 9 2 [0, 1] = some (P, r) →
        dictIdx [0, 1] (1 : ℕ) = some i →
        P i jabs = 1 ∧ ∀ k, k ≠ jabs → P i k = 0)) :=
  build_policy_Pr_absorb_precondition mdpC1 polC1 9 2 [0, 1] 1 (by decide) (by decide)

/-! ## C8: enumeration starts at the start state; fitness is v[0] -/

theorem enumStep_inv {σ : Type} [DecidableEq σ] (s0 : σ) :
    ∀ (succs : List (σ × ℚ)) (acc : List σ × List σ × List σ),
      s0 ∈ acc.1 → (∃ t, acc.2.1 = s0 :: t ∧ s0 ∉ t) →
      s0 ∈ (enumStep succs acc).1 ∧
      (∃ t, (enumStep succs acc).2.1 = s0 :: t ∧ s0 ∉ t) := by
  intro succs
  induction succs with
  | nil => intro acc h1 h2; exact ⟨h1, h2⟩
  | cons hd rest ih =>
    intro acc h1 h2
    have hstep : enumStep (hd :: rest) acc = enumStep rest
        (if hd.1 ∈ acc.1 then acc
         else (hd.1 :: acc.1, acc.2.1 ++ [hd.1], hd.1 :: acc.2.2)) := by
      simp only [enumStep, List.foldl_cons]
    rw [hstep]
    by_cases hmem : hd.1 ∈ acc.1
    · rw [if_pos hmem]
      exact ih acc h1 h2
    · rw [if_neg hmem]
      apply ih
      · exact List.mem_cons_of_mem _ h1
      · obtain ⟨t, ht, hnt⟩ := h2
        refine ⟨t ++ [hd.1], ?_, ?_⟩
        · simp only [ht, List.cons_append]
        · intro hcontra
          rcases List.mem_append.mp hcontra with h | h
          · exact hnt h
          · simp only [List.mem_singleton] at h
            exact hmem (h ▸ h1)

theorem enumLoop_start {σ α : Type} [DecidableEq σ] [DecidableEq α]
    (mdp : FinMDP σ α) (s0 : σ) :
    ∀ (fuel : ℕ) (seen out stk : List σ),
      s0 ∈ seen → (∃ t, out = s0 :: t ∧ s0 ∉ t) →
      ∃ t', enumLoop mdp fuel seen out stk = s0 :: t' ∧ s0 ∉ t' := by
  intro fuel
  induction fuel with
  | zero => intro seen out stk _ h2; exact h2
  | succ m ih =>
    intro seen out stk h1 h2
    cases stk with
    | nil => exact h2
    | cons s stk' =>
      simp only [enumLoop]
      obtain ⟨hs1, hs2⟩ := enumStep_inv s0
        ((mdp.actions s).flatMap (fun a => mdp.transition s a)) (seen, out, stk') h1 h2
      exact ih _ _ _ hs1 hs2

/-- The DFS discovery list always begins with the start state, which
never reappears later in the list. -/
theorem enumerate_states_start {σ α : Type} [DecidableEq σ] [DecidableEq α]
    (mdp : FinMDP σ α) (fuel : ℕ) :
    ∃ t, enumerate_states mdp fuel = mdp.start :: t ∧ mdp.start ∉ t :=
  enumLoop_start mdp mdp.start fuel _ _ _ (by simp) ⟨[], rfl, by simp⟩

theorem dictIdx_zero_of_head {σ : Type} [DecidableEq σ] (l : List σ) (x : σ)
    (h : ∃ t, l = x :: t ∧ x ∉ t) (h0 : 0 < l.length) :
    dictIdx l x = some ⟨0, h0⟩ := by
  obtain ⟨t, rfl, hn⟩ := h
  exact dictIdx_cons_self_of_not_mem hn

/-- C8: for every environment, discount in `(0,1]` and valid method
selector, whenever the orchestrator returns, its fitness equals the value
vector's entry at index 0, and the start state's index in the enumeration
is 0 (the start state is the first enumerated state and never
reappears). -/
theorem run_fitness {σ α R : Type} [DecidableEq σ] [DecidableEq α]
    (mdp : FinMDP σ α) (rng : R) (isSeed : σ → Bool) (canon tieBreak : List α)
    (absorbA : α) (absorbS : σ) (gamma : ℚ) (fuel : ℕ) (method : String)
    (hγ : 0 < gamma ∧ gamma ≤ 1)
    (hm : method = "exact" ∨ method = "iterative")
    (out : MyPolicyState σ α R × (Fin (enumerate_states mdp fuel).length → ℚ) × ℚ)
    (hout : run mdp rng isSeed canon tieBreak absorbA absorbS gamma fuel method
      = some out) :
    ∃ h0 : 0 < (enumerate_states mdp fuel).length,
      out.2.2 = out.2.1 ⟨0, h0⟩ ∧
      dictIdx (enumerate_states mdp fuel) mdp.start = some ⟨0, h0⟩ := by
  obtain ⟨t, ht, hnmem⟩ := enumerate_states_start mdp fuel
  have h0 : 0 < (enumerate_states mdp fuel).length := by rw [ht]; simp
  refine ⟨h0, ?_, dictIdx_zero_of_head _ _ ⟨t, ht, hnmem⟩ h0⟩
  unfold run at hout
  cases hpol : myPolicyInit mdp rng isSeed canon tieBreak absorbA fuel with
  | none => rw [hpol] at hout; cases hout
  | some pol =>
    rw [hpol] at hout
    dsimp only at hout
    cases hbuild : build_policy_Pr mdp
        ⟨fun s => myPolicyDecision mdp pol absorbA s, none⟩ absorbA absorbS
        (enumerate_states mdp fuel) with
    | none => rw [hbuild] at hout; cases hout
    | some Pr =>
      rw [hbuild] at hout
      dsimp only at hout
      cases hv : (if method = "exact" then
          exact_policy_evaluation (Matrix.of Pr.1) Pr.2 gamma
        else
          if method = "iterative" then
            some (iterative_policy_evaluation (Matrix.of Pr.1) Pr.2 gamma defaultEps
              defaultMaxIters)
          else none) with
      | none => rw [hv] at hout; cases hout
      | some v =>
        rw [hv] at hout
        dsimp only at hout
        rw [dif_pos h0] at hout
        rw [Option.some.injEq] at hout
        rw [← hout]

/-- A one-state environment whose start state is the absorbing state
itself: the only action is the absorb action `9`, self-looping. -/
def mdpC8 : FinMDP ℕ ℕ where
  start := 0
  actions := fun _ => [9]
  transition := fun _ a => if a = 9 then [(0, 1)] else []
  reward := fun _ => 0

/-- Witness for C8: the orchestrator run on `mdpC8` with the iterative
method returns, its fitness is the value vector at index 0, and the start
state's enumeration index is 0. -/
theorem run_fitness_witness :
    ∃ out, run mdpC8 (0 : ℕ) (fun s => s == 0) [9] [9] 9 0 (1/2) 2 "iterative"
        = some out ∧
      ∃ h0 : 0 < (enumerate_states mdpC8 2).length,
        out.2.2 = out.2.1 ⟨0, h0⟩ ∧
        dictIdx (enumerate_states mdpC8 2) mdpC8.start = some ⟨0, h0⟩ := by
  have hsome : (run mdpC8 (0 : ℕ) (fun s => s == 0) [9] [9] 9 0 (1/2) 2
      "iterative").isSome = true := by decide
  obtain ⟨out, hout⟩ := Option.isSome_iff_exists.mp hsome
  exact ⟨out, hout,
    run_fitness mdpC8 (0 : ℕ) (fun s => s == 0) [9] [9] 9 0 (1/2) 2 "iterative"
      (by norm_num) (Or.inr rfl) out hout⟩

/-! ## C5: fallback action for states cut off from every seed -/

theorem chooseFold_none {σ α : Type} [DecidableEq σ] [DecidableEq α]
    (mdp : FinMDP σ α) (dist : σ → ℕ∞) (s : σ) :
    ∀ l : List α, (∀ a ∈ l, a ∈ mdp.actions s →
      ∀ ns, mostLikelySuccessor (mdp.transition s a) = some ns → dist ns = ⊤) →
      chooseFold mdp dist s l (none, ⊤) = (none, ⊤) := by
  intro l
  induction l with
  | nil => intro _; rfl
  | cons a rest ih =>
    intro h
    simp only [chooseFold]
    by_cases hmem : a ∈ mdp.actions s
    · rw [if_pos hmem]
      cases hns : mostLikelySuccessor (mdp.transition s a) with
      | none => exact ih (fun a' ha' => h a' (List.mem_cons_of_mem _ ha'))
      | some ns =>
        have hd : dist ns = ⊤ := h a (by simp) hmem ns hns
        dsimp only
        rw [hd]
        rw [if_neg (lt_irrefl (⊤ : ℕ∞))]
        exact ih (fun a' ha' => h a' (List.mem_cons_of_mem _ ha'))
    · rw [if_neg hmem]
      exact ih (fun a' ha' => h a' (List.mem_cons_of_mem _ ha'))

theorem buildChoice_mem {σ α : Type} [DecidableEq σ] [DecidableEq α]
    (mdp : FinMDP σ α) (dist : σ → ℕ∞) (tieBreak : List α) (absorbA : α) (s : σ)
    (hterm : mdp.actions s ≠ [absorbA]) :
    ∀ (states : List σ) (ch0 : σ → Option α),
      (s ∈ states ∨ ch0 s = chooseFor mdp dist tieBreak s) →
      states.foldl
        (fun ch t =>
          if mdp.actions t = [absorbA] then ch
          else Function.update ch t (chooseFor mdp dist tieBreak t)) ch0 s
        = chooseFor mdp dist tieBreak s := by
  intro states
  induction states with
  | nil =>
    intro ch0 h
    rcases h with h | h
    · simp at h
    · exact h
  | cons t rest ih =>
    intro ch0 h
    simp only [List.foldl_cons]
    apply ih
    by_cases hts : t = s
    · subst hts
      rw [if_neg hterm]
      right
      rw [Function.update_same]
    · rcases h with h | h
      · rcases List.mem_cons.mp h with h' | h'
        · exact absurd h'.symm hts
        · exact Or.inl h'
      · right
        by_cases htt : mdp.actions t = [absorbA]
        · rw [if_pos htt]
          exact h
        · rw [if_neg htt, Function.update_noteq (fun hh => hts hh.symm)]
          exact h

/-- C5: the synthesizer never fails on a non-terminal state cut off from
every seed: if no legal tie-break action has a most-likely successor at
finite BFS distance, the precomputed choice is the first tie-break
action, and the decision function returns it, so the policy stays total
over non-terminal states. -/
theorem myPolicy_fallback {σ α R : Type} [DecidableEq σ] [DecidableEq α]
    (mdp : FinMDP σ α) (rng : R) (isSeed : σ → Bool) (canon tieBreak : List α)
    (absorbA : α) (fuel : ℕ) (ps : MyPolicyState σ α R)
    (hinit : myPolicyInit mdp rng isSeed canon tieBreak absorbA fuel = some ps)
    (s : σ) (hs : s ∈ enumerate_states mdp fuel) (hterm : mdp.actions s ≠ [absorbA])
    (hcut : ∀ a ∈ tieBreak, a ∈ mdp.actions s →
      ∀ ns, mostLikelySuccessor (mdp.transition s a) = some ns → ps.dist ns = ⊤) :
    ps.choice s = tieBreak.head? ∧
    myPolicyDecision mdp ps absorbA s = tieBreak.head? ∧
    (tieBreak ≠ [] → ∃ a, myPolicyDecision mdp ps absorbA s = some a) := by
  unfold myPolicyInit at hinit
  dsimp only at hinit
  cases hbfs : bfsLoop (buildPreds mdp canon absorbA (enumerate_states mdp fuel)) fuel
      (((enumerate_states mdp fuel).filter (fun t => isSeed t)).foldl
        (fun d t => Function.update d t 0) (fun _ => ⊤))
      ((enumerate_states mdp fuel).filter (fun t => isSeed t)) with
  | none => rw [hbfs] at hinit; cases hinit
  | some d =>
    rw [hbfs] at hinit
    dsimp only at hinit
    rw [Option.some.injEq] at hinit
    have hdist : ps.dist = d := by rw [← hinit]
    have hchoice : ps.choice = buildChoice mdp d tieBreak absorbA
        (enumerate_states mdp fuel) := by rw [← hinit]
    have htb : ps.tieBreak = tieBreak := by rw [← hinit]
    have hch : ps.choice s = chooseFor mdp d tieBreak s := by
      rw [hchoice]
      exact buildChoice_mem mdp d tieBreak absorbA s hterm _ _ (Or.inl hs)
    have hforNone : chooseFor mdp d tieBreak s = tieBreak.head? := by
      unfold chooseFor
      rw [chooseFold_none mdp d s tieBreak
        (fun a ha hmem ns hns => hdist ▸ hcut a ha hmem ns hns)]
    have hc : ps.choice s = tieBreak.head? := by rw [hch, hforNone]
    refine ⟨hc, ?_, ?_⟩
    · unfold myPolicyDecision
      rw [if_neg hterm, hc, htb]
      cases tieBreak <;> rfl
    · intro hne
      unfold myPolicyDecision
      rw [if_neg hterm, hc, htb]
      cases tieBreak with
      | nil => exact absurd rfl hne
      | cons a rest => exact ⟨a, rfl⟩

/-- Witness for C5 on `mdpC1` with the goal seed at the absorbing state 2:
the start state 0 only reaches the hole 1, every candidate successor has
infinite distance, and the choice and decision fall back to the first
tie-break action. -/
theorem myPolicy_fallback_witness :
    ∃ ps : MyPolicyState ℕ ℕ ℕ,
      myPolicyInit mdpC1 (0 : ℕ) (fun t => t == 2) [1] [1] 9 4 = some ps ∧
      (ps.choice 0 = ([1] : List ℕ).head? ∧
        myPolicyDecision mdpC1 ps 9 0 = ([1] : List ℕ).head? ∧
        (([1] : List ℕ) ≠ [] → ∃ a, myPolicyDecision mdpC1 ps 9 0 = some a)) := by
  have hsome : (myPolicyInit mdpC1 (0 : ℕ) (fun t => t == 2) [1] [1] 9 4).isSome
      = true := by decide
  obtain ⟨ps, hps⟩ := Option.isSome_iff_exists.mp hsome
  have hd1 : (myPolicyInit mdpC1 (0 : ℕ) (fun t => t == 2) [1] [1] 9 4).map
      (fun q => q.dist 1) = some ⊤ := by decide
  rw [hps] at hd1
  simp only [Option.map_some', Option.some.injEq] at hd1
  refine ⟨ps, hps, ?_⟩
  apply myPolicy_fallback mdpC1 (0 : ℕ) (fun t => t == 2) [1] [1] 9 4 ps hps 0
    (by decide) (by decide)
  intro a ha hmem ns hns
  have ha1 : a = 1 := by simpa using ha
  subst ha1
  have hmls : mostLikelySuccessor (mdpC1.transition 0 1) = some 1 := by decide
  rw [hmls] at hns
  have hns1 : ns = 1 := by
    injection hns with h
    exact h.symm
  rw [hns1]
  exact hd1

/-! ## C6: the distance map satisfies the reverse-BFS recurrence -/

theorem relaxPreds_spec {σ α : Type} [DecidableEq σ] (dx : ℕ∞) :
    ∀ (l : List (σ × α)) (d : σ → ℕ∞) (q : List σ),
      (∀ p, (relaxPreds dx l d q).1 p ≤ d p) ∧
      (∀ p, (relaxPreds dx l d q).1 p = d p ∨ (relaxPreds dx l d q).1 p = dx + 1) ∧
      (∀ pa ∈ l, (relaxPreds dx l d q).1 (Prod.fst pa) ≤ dx + 1) ∧
      (∀ y ∈ q, y ∈ (relaxPreds dx l d q).2) ∧
      (∀ p, (relaxPreds dx l d q).1 p = d p ∨ p ∈ (relaxPreds dx l d q).2) := by
  intro l
  induction l with
  | nil =>
    intro d q
    exact ⟨fun p => le_refl _, fun p => Or.inl rfl, by simp, fun y hy => hy,
      fun p => Or.inl rfl⟩
  | cons pa rest ih =>
    obtain ⟨p0, a0⟩ := pa
    intro d q
    simp only [relaxPreds]
    by_cases hlt : dx + 1 < d p0
    · rw [if_pos hlt]
      obtain ⟨L1, L2', L2, L4, L3⟩ := ih (Function.update d p0 (dx + 1)) (q ++ [p0])
      have hupd_le : ∀ p, Function.update d p0 (dx + 1) p ≤ d p := by
        intro p
        rcases eq_or_ne p p0 with rfl | hne
        · rw [Function.update_same]
          exact le_of_lt hlt
        · rw [Function.update_noteq hne]
      refine ⟨fun p => le_trans (L1 p) (hupd_le p), ?_, ?_, ?_, ?_⟩
      · intro p
        rcases L2' p with h | h
        · rcases eq_or_ne p p0 with rfl | hne
          · rw [Function.update_same] at h
            exact Or.inr h
          · rw [Function.update_noteq hne] at h
            exact Or.inl h
        · exact Or.inr h
      · intro pa' hpa'
        rcases List.mem_cons.mp hpa' with rfl | h
        · exact le_trans (L1 _) (by rw [Function.update_same])
        · exact L2 pa' h
      · intro y hy
        exact L4 y (List.mem_append_left _ hy)
      · intro p
        rcases eq_or_ne p p0 with rfl | hne
        · exact Or.inr (L4 p (List.mem_append_right _ (by simp)))
        · rcases L3 p with h | h
          · rw [Function.update_noteq hne] at h
            exact Or.inl h
          · exact Or.inr h
    · rw [if_neg hlt]
      obtain ⟨L1, L2', L2, L4, L3⟩ := ih d q
      refine ⟨L1, L2', ?_, L4, L3⟩
      intro pa' hpa'
      rcases List.mem_cons.mp hpa' with rfl | h
      · exact le_trans (L1 _) (le_of_not_lt hlt)
      · exact L2 pa' h

theorem bfsLoop_inv {σ α : Type} [DecidableEq σ] (preds : σ → List (σ × α)) :
    ∀ (fuel : ℕ) (d : σ → ℕ∞) (q : List σ) (dfin : σ → ℕ∞),
      bfsLoop preds fuel d q = some dfin →
      (∀ ns pa, pa ∈ preds ns → d (Prod.fst pa) ≤ d ns + 1 ∨ ns ∈ q) →
      ∀ ns pa, pa ∈ preds ns → dfin (Prod.fst pa) ≤ dfin ns + 1 := by
  have hempty : ∀ (d dfin : σ → ℕ∞),
      (∀ ns pa, pa ∈ preds ns → d (Prod.fst pa) ≤ d ns + 1 ∨ ns ∈ ([] : List σ)) →
      d = dfin → ∀ ns pa, pa ∈ preds ns → dfin (Prod.fst pa) ≤ dfin ns + 1 := by
    intro d dfin hinv heq ns pa hpa
    rcases hinv ns pa hpa with h | h
    · rw [← heq]
      exact h
    · simp at h
  intro fuel
  induction fuel with
  | zero =>
    intro d q dfin h hinv
    cases q with
    | nil =>
      simp only [bfsLoop, Option.some.injEq] at h
      exact hempty d dfin hinv h
    | cons x q' => cases h
  | succ m ih =>
    intro d q dfin h hinv
    cases q with
    | nil =>
      simp only [bfsLoop, Option.some.injEq] at h
      exact hempty d dfin hinv h
    | cons x q' =>
      simp only [bfsLoop] at h
      apply ih _ _ dfin h
      obtain ⟨L1, L2', L2, L4, L3⟩ := relaxPreds_spec (d x) (preds x) d q'
      intro ns pa hpa
      rcases eq_or_ne ns x with rfl | hne
      · left
        have hx : d ns ≤ (relaxPreds (d ns) (preds ns) d q').1 ns := by
          rcases L2' ns with h' | h'
          · rw [h']
          · rw [h']
            exact le_self_add
        exact le_trans (L2 pa hpa) (add_le_add_right hx 1)
      · rcases hinv ns pa hpa with hle | hmem
        · rcases L3 ns with hd' | hq'
          · left
            rw [hd']
            exact le_trans (L1 _) hle
          · exact Or.inr hq'
        · right
          rcases List.mem_cons.mp hmem with h' | h'
          · exact absurd h' hne
          · exact L4 ns h'

theorem seedFold_mem {σ : Type} [DecidableEq σ] :
    ∀ (seeds : List σ) (d : σ → ℕ∞) (ns : σ),
      (seeds.foldl (fun d t => Function.update d t 0) d) ns = d ns ∨ ns ∈ seeds := by
  intro seeds
  induction seeds with
  | nil => intro d ns; exact Or.inl rfl
  | cons t rest ih =>
    intro d ns
    simp only [List.foldl_cons]
    rcases ih (Function.update d t 0) ns with h | h
    · rcases eq_or_ne ns t with rfl | hne
      · exact Or.inr (by simp)
      · rw [Function.update_noteq hne] at h
        exact Or.inl h
    · exact Or.inr (by simp [h])

/-- C6: whenever the reverse BFS completes, the distance map satisfies
the shortest-path recurrence on the recorded reverse-edge graph: for
every recorded edge from a successor `ns` to a `(predecessor, action)`
pair, `d(predecessor) ≤ d(ns) + 1`. -/
theorem myPolicy_dist_recurrence {σ α R : Type} [DecidableEq σ] [DecidableEq α]
    (mdp : FinMDP σ α) (rng : R) (isSeed : σ → Bool) (canon tieBreak : List α)
    (absorbA : α) (fuel : ℕ) (ps : MyPolicyState σ α R)
    (hinit : myPolicyInit mdp rng isSeed canon tieBreak absorbA fuel = some ps) :
    ∀ ns pa, pa ∈ ps.preds ns → ps.dist (Prod.fst pa) ≤ ps.dist ns + 1 := by
  unfold myPolicyInit at hinit
  dsimp only at hinit
  cases hbfs : bfsLoop (buildPreds mdp canon absorbA (enumerate_states mdp fuel)) fuel
      (((enumerate_states mdp fuel).filter (fun t => isSeed t)).foldl
        (fun d t => Function.update d t 0) (fun _ => ⊤))
      ((enumerate_states mdp fuel).filter (fun t => isSeed t)) with
  | none => rw [hbfs] at hinit; cases hinit
  | some d =>
    rw [hbfs] at hinit
    dsimp only at hinit
    rw [Option.some.injEq] at hinit
    have hpreds : ps.preds = buildPreds mdp canon absorbA (enumerate_states mdp fuel) := by
      rw [← hinit]
    have hdist : ps.dist = d := by rw [← hinit]
    rw [hpreds, hdist]
    apply bfsLoop_inv _ fuel _ _ d hbfs
    intro ns pa _
    rcases seedFold_mem ((enumerate_states mdp fuel).filter (fun t => isSeed t))
      (fun _ => ⊤) ns with h | h
    · left
      rw [h]
      simp
    · exact Or.inr h

/-- Witness for C6: on `mdpC1` (edge: hole 1 has predecessor (0, action 1))
the BFS completes and the recurrence holds on every recorded edge. -/
theorem myPolicy_dist_recurrence_witness :
    ∃ ps : MyPolicyState ℕ ℕ ℕ,
      myPolicyInit mdpC1 (1 : ℕ) (fun t => t == 2) [1] [1] 9 4 = some ps ∧
      ∀ ns pa, pa ∈ ps.preds ns → ps.dist (Prod.fst pa) ≤ ps.dist ns + 1 := by
  have hsome : (myPolicyInit mdpC1 (1 : ℕ) (fun t => t == 2) [1] [1] 9 4).isSome
      = true := by decide
  obtain ⟨ps, hps⟩ := Option.isSome_iff_exists.mp hsome
  exact ⟨ps, hps,
    myPolicy_dist_recurrence mdpC1 (1 : ℕ) (fun t => t == 2) [1] [1] 9 4 ps hps⟩
